import Mathlib

/-!
Verification of the CTA load-balancing search kernel of moderngpu
(`src/moderngpu/cta_load_balance.hxx`), shallowly embedded in Lean.

Modelling conventions:
* C `int` values are modelled as `Int` (no overflow occurs in the verified
  domain: all quantities stay far below `2^31` under the documented
  preconditions, so plain integer arithmetic is faithful).
* The CTA shared-memory buffer `storage.indices[nv + 2]` is modelled as a
  total function `Int → Int`.  Its arbitrary initial contents `σ0` are an
  explicit parameter, so a theorem quantified over `σ0` proves that the code
  never depends on unstaged ("garbage") memory.
* Cooperative phases separated by `__syncthreads()` barriers are modelled by
  applying every thread's writes between two barriers to the shared state,
  folding over `tid = 0, …, nt-1`.  The development proves that the writes of
  distinct threads are disjoint, which justifies this bulk-synchronous model.
* The per-thread serial merge (an `iterate<vt+1>` loop) is modelled exactly,
  step by step, recording the `merge_flags` bit operations and the list of
  `a_shared` writes each thread performs.
-/

/-- Merge rectangle `[a_begin, a_end) × [b_begin, b_end)` (from
`cta_merge.hxx`, used by the source as a plain aggregate of four ints). -/
structure merge_range_t where
  a_begin : Int
  a_end : Int
  b_begin : Int
  b_end : Int
deriving DecidableEq

/-- Number of A elements of a merge range: `a_end - a_begin`. -/
def merge_range_t.a_count (r : merge_range_t) : Int := r.a_end - r.a_begin

/-- Number of B elements of a merge range: `b_end - b_begin`. -/
def merge_range_t.b_count (r : merge_range_t) : Int := r.b_end - r.b_begin

/-- Result of the placement stage (`lbs_placement_t` in the source): the
merge range of loaded values plus the per-thread serial-merge start
coordinates. -/
structure lbs_placement_t where
  range : merge_range_t
  a_index : Int
  b_index : Int
deriving DecidableEq

/-- Modelled from the spec: `compute_merge_range(count, num_segments, cta,
nv, mp0, mp1)` lives in `cta_merge.hxx`, outside the sources provided; the
spec documents only that it "derives the A/B subranges for the tile from
merge-path crossings".  The A range of the tile is delimited by the two
crossings, and the B range by diagonal minus crossing, where the diagonals of
the tile are `nv*cta` and `min(count + num_segments, nv*cta + nv)`. -/
def compute_merge_range (count num_segments cta nv mp0 mp1 : Int) :
    merge_range_t :=
  { a_begin := mp0, a_end := mp1,
    b_begin := nv * cta - mp0,
    b_end := min (count + num_segments) (nv * cta + nv) - mp1 }

/-- Greedy upper-bounds merge walk: `mpath_go a b aCount bCount d` is the
number of A elements among the first `d` elements of the merge of
`a 0, …, a (aCount-1)` with `b 0, …, b (bCount-1)` in which an equal pair
advances B first (upper-bounds tie break).  One step advances A exactly when
A is not exhausted and either B is exhausted or the next A key is strictly
smaller than the next B key. -/
def mpath_go (a b : Int → Int) (aCount bCount : Int) : Nat → Int
  | 0 => 0
  | d + 1 =>
    let x := mpath_go a b aCount bCount d
    let y := (d : Int) - x
    if x < aCount ∧ (bCount ≤ y ∨ a x < b y) then x + 1 else x

/-- Modelled from the spec: `merge_path<bounds_upper>(a_keys, a_count,
b_keys, b_count, diag, less_t<int>())` lives in `cta_merge.hxx`, outside the
sources provided.  The spec documents its contract: it returns the split
`mp ∈ [max(0, diag - b_count), min(diag, a_count)]` such that partitioning at
`(mp, diag - mp)` produces an upper-bounds merge, i.e. the number of A
elements among the first `diag` elements of the upper-bounds merge of the two
key sequences. -/
def merge_path (a b : Int → Int) (aCount bCount diag : Int) : Int :=
  mpath_go a b aCount bCount diag.toNat

/-- Source line 23: `int load_preceding = 0 < range.b_begin;`. -/
def lb_lp (range : merge_range_t) : Int :=
  if 0 < range.b_begin then 1 else 0

/-- Source lines 23-30 of `cta_load_balance_place`: extend the B range one
to the left when a preceding segment id exists, and one to the right when
both a trailing segment id and a trailing output exist. -/
def place_range (range : merge_range_t) (count num_segments : Int) :
    merge_range_t :=
  let r1 : merge_range_t := { range with b_begin := range.b_begin - lb_lp range }
  if r1.b_end < num_segments ∧ r1.a_end < count then
    { r1 with b_end := r1.b_end + 1 }
  else r1

/-- Source line 32: `int load_count = range.b_count();` (of the adjusted
range). -/
def lb_load_count (range : merge_range_t) (count num_segments : Int) : Int :=
  (place_range range count num_segments).b_count

/-- Source line 33:
`int fill_count = nt * vt + 1 + load_preceding - load_count - range.a_count();`. -/
def lb_fill_count (nt vt : Nat) (range : merge_range_t)
    (count num_segments : Int) : Int :=
  (nt : Int) * vt + 1 + lb_lp range - lb_load_count range count num_segments -
    range.a_count

/-- One thread's strided cooperative loop
`for(int i = tid; i < c; i += nt) shared[base + i] = v(i);`
(the pattern of source lines 36-37, 41-42 and 175-176).  `fuel` bounds the
number of iterations; call sites pass enough fuel for the loop to run to
completion (`fuel = c.toNat` suffices since `i` starts non-negative and
strictly increases). -/
def strided_loop (nt : Nat) (base c : Int) (v : Int → Int) :
    Nat → Int → (Int → Int) → (Int → Int)
  | 0, _, σ => σ
  | fuel + 1, i, σ =>
    if i < c then
      strided_loop nt base c v fuel (i + nt) (Function.update σ (base + i) (v i))
    else σ

/-- Combined effect of all `nt` threads running `strided_loop` between two
barriers.  The per-thread index sets `{tid, tid+nt, tid+2nt, …}` are pairwise
disjoint, so the fold order over threads is immaterial; this canonical order
models the post-barrier shared state. -/
def cta_strided (nt : Nat) (base c : Int) (v : Int → Int) (σ : Int → Int) :
    Int → Int :=
  (List.range nt).foldl
    (fun σ (tid : Nat) => strided_loop nt base c v c.toNat ((tid : Nat) : Int) σ) σ

/-- Shared-memory contents after the staging phase of
`cta_load_balance_place` (source lines 36-43): all threads fill
`b_shared[load_count + i] = count` for `i < fill_count` and
`b_shared[i] = segments[range.b_begin + i]` for `i < load_count`, where
`b_shared` is `storage + range.a_count()`. -/
def lb_sigma1 (nt vt : Nat) (count : Int) (segments : Int → Int)
    (num_segments : Int) (range : merge_range_t) (σ0 : Int → Int) :
    Int → Int :=
  let r1 := place_range range count num_segments
  let L := lb_load_count range count num_segments
  let F := lb_fill_count nt vt range count num_segments
  cta_strided nt range.a_count L (fun i => segments (r1.b_begin + i))
    (cta_strided nt (range.a_count + L) F (fun _ => count) σ0)

/-- State of one thread's serial merge (source lines 109-122): the running
output cursor `cur_item`, segment cursor `cur_segment`, the `merge_flags`
accumulator, and the list of `(cur_item, cur_segment)` pairs at which this
thread executed `a_shared[cur_item++] = cur_segment`. -/
structure merge_state where
  cur_item : Int
  cur_segment : Int
  merge_flags : Nat
  writes : List (Int × Int)
deriving DecidableEq

/-- One step of the serial merge (body of `iterate<vt+1>`, source lines
114-122).  `σ1` is the post-staging shared memory; the read
`b_shared[cur_segment + 1]` with `b_shared = storage + a_count - b_begin`
(after the line-106 adjustment) is the read of `σ1` at index
`a_count + (cur_segment + 1 - b_begin)`.  During this phase all threads only
write the `a_shared` region `[0, a_count)` of storage, disjoint from the read
region, so reading the post-barrier `σ1` is faithful. -/
def lb_step (σ1 : Int → Int) (aCount b_begin1 : Int) (vt : Nat)
    (s : merge_state) (i : Nat) : merge_state :=
  let p : Bool := decide (s.cur_item < σ1 (aCount + (s.cur_segment + 1 - b_begin1)))
  if p && decide (i < vt) then
    { cur_item := s.cur_item + 1, cur_segment := s.cur_segment,
      merge_flags := s.merge_flags ||| ((if p then 1 else 0) <<< i),
      writes := s.writes ++ [(s.cur_item, s.cur_segment)] }
  else
    { cur_item := s.cur_item, cur_segment := s.cur_segment + 1,
      merge_flags := s.merge_flags ||| ((if p then 1 else 0) <<< i),
      writes := s.writes }

/-- Cross-diagonal of thread `t` (source line 48):
`diag = vt * tid + load_preceding`. -/
def lb_diag (vt : Nat) (range : merge_range_t) (t : Nat) : Int :=
  (vt : Int) * t + lb_lp range

/-- Merge-path split of thread `t` (source lines 49-50): search over the
counting A stream starting at `range.a_begin` and the staged B window of
`load_count + fill_count` keys. -/
def lb_mp (nt vt : Nat) (count : Int) (segments : Int → Int)
    (num_segments : Int) (range : merge_range_t) (σ0 : Int → Int)
    (t : Nat) : Int :=
  merge_path (fun x => range.a_begin + x)
    (fun y => lb_sigma1 nt vt count segments num_segments range σ0
      (range.a_count + y))
    range.a_count
    (lb_load_count range count num_segments +
      lb_fill_count nt vt range count num_segments)
    (lb_diag vt range t)

/-- Placement of thread `t` (source lines 59-64): `a_index = a_begin + mp`
and `b_index = b_begin + (diag - mp) - 1` over the adjusted range. -/
def lb_placement (nt vt : Nat) (count : Int) (segments : Int → Int)
    (num_segments : Int) (range : merge_range_t) (σ0 : Int → Int)
    (t : Nat) : lbs_placement_t :=
  let r1 := place_range range count num_segments
  let mp := lb_mp nt vt count segments num_segments range σ0 t
  { range := r1,
    a_index := range.a_begin + mp,
    b_index := r1.b_begin + (lb_diag vt range t - mp) - 1 }

/-- Full serial merge of thread `t`: `vt + 1` iterations of `lb_step`
starting from the thread's placement (source lines 109-122). -/
def lb_thread_run (nt vt : Nat) (count : Int) (segments : Int → Int)
    (num_segments : Int) (range : merge_range_t) (σ0 : Int → Int)
    (t : Nat) (n : Nat) : merge_state :=
  let pl := lb_placement nt vt count segments num_segments range σ0 t
  (List.range n).foldl
    (lb_step (lb_sigma1 nt vt count segments num_segments range σ0)
      range.a_count pl.range.b_begin vt)
    { cur_item := pl.a_index, cur_segment := pl.b_index,
      merge_flags := 0, writes := [] }

/-- Replay of a thread's `a_shared` writes onto shared storage:
`a_shared[cur_item] = cur_segment` writes storage index
`cur_item - range.a_begin` (source line 98: `a_shared = storage - a_begin`). -/
def apply_writes (a_begin : Int) (ws : List (Int × Int)) (σ : Int → Int) :
    Int → Int :=
  ws.foldl (fun σ w => Function.update σ (w.1 - a_begin) w.2) σ

/-- Shared-memory contents after the serial-merge phase and its barrier
(source line 123): the staged window plus every thread's `a_shared` writes.
The development proves that distinct threads write disjoint slots, so the
fold order over threads is immaterial. -/
def lb_sigma2 (nt vt : Nat) (count : Int) (segments : Int → Int)
    (num_segments : Int) (range : merge_range_t) (σ0 : Int → Int) :
    Int → Int :=
  (List.range nt).foldl
    (fun σ t =>
      apply_writes range.a_begin
        (lb_thread_run nt vt count segments num_segments range σ0 t (vt + 1)).writes
        σ)
    (lb_sigma1 nt vt count segments num_segments range σ0)

/-- Result record of `cta_load_balance_t::load_balance` (source lines
74-85).  The strided per-thread arrays `indices`, `segments`, `ranks` of
length `vt` are modelled as functions on lane index `i < vt`. -/
structure result_t where
  placement : lbs_placement_t
  merge_range : merge_range_t
  merge_flags : Nat
  indices : Nat → Int
  segments : Nat → Int
  ranks : Nat → Int

/-- Body of `load_balance` for a given tile range (source lines 98-146).
The strided readout (lines 128-139) reads, for lane `i` with
`j = nt*i + tid`: the segment id `storage.indices[j]` and the rank
`indices[i] - b_shared[seg[i]]`, with `b_shared = storage + a_count - b_begin`
over the adjusted range. -/
def lb_body (nt vt : Nat) (count : Int) (segments : Int → Int)
    (num_segments : Int) (tid : Nat) (range : merge_range_t)
    (σ0 : Int → Int) : result_t :=
  let r1 := place_range range count num_segments
  let σ2 := lb_sigma2 nt vt count segments num_segments range σ0
  let final := lb_thread_run nt vt count segments num_segments range σ0 tid (vt + 1)
  { placement := lb_placement nt vt count segments num_segments range σ0 tid,
    merge_range := range,
    merge_flags := final.merge_flags,
    indices := fun i => range.a_begin + ((nt : Int) * i + tid),
    segments := fun i =>
      if (nt : Int) * i + tid < range.a_count then σ2 ((nt : Int) * i + tid)
      else range.b_begin,
    ranks := fun i =>
      if (nt : Int) * i + tid < range.a_count then
        (range.a_begin + ((nt : Int) * i + tid)) -
          σ2 (range.a_count + (σ2 ((nt : Int) * i + tid) - r1.b_begin))
      else -1 }

/-- Entry point mirroring the source signature (lines 88-96): read the two
merge-path crossings from `partitions`, recover the tile's merge range, and
run the body. -/
def load_balance (nt vt : Nat) (count : Int) (segments : Int → Int)
    (num_segments : Int) (tid : Nat) (cta : Int) (partitions : Int → Int)
    (σ0 : Int → Int) : result_t :=
  lb_body nt vt count segments num_segments tid
    (compute_merge_range count num_segments cta ((nt : Int) * vt)
      (partitions cta) (partitions (cta + 1)))
    σ0

/-- Population count of a natural number (number of set bits); used to state
the spec's `popcount(merge_flags & ((1<<vt)-1))` invariant. -/
def popcount : Nat → Nat
  | 0 => 0
  | n + 1 => (n + 1) % 2 + popcount ((n + 1) / 2)
decreasing_by simp_wf; omega

/-- Bit accumulator shape produced by `n` iterations of
`merge_flags |= (int)p << i`: bit `k` holds `q k` for `k < n`. -/
def flagsOf (q : Nat → Bool) : Nat → Nat
  | 0 => 0
  | n + 1 => flagsOf q n ||| ((if q n then 1 else 0) <<< n)

/-- Pure contents of the staged B window: entry `y` is
`segments[b_begin' + y]` for `y < load_count` and the sentinel `count`
beyond (`b_begin'` is the adjusted begin of `place_range`). -/
def lb_window (count : Int) (segments : Int → Int)
    (num_segments : Int) (range : merge_range_t) (y : Int) : Int :=
  if y < lb_load_count range count num_segments then
    segments ((place_range range count num_segments).b_begin + y)
  else count

/-- Upper-bounds merge path of the tile, as a function of the diagonal:
A is the counting stream starting at `range.a_begin` with `a_count` entries,
B is the staged window with `load_count + fill_count` entries. -/
def lb_path (nt vt : Nat) (count : Int) (segments : Int → Int)
    (num_segments : Int) (range : merge_range_t) (d : Nat) : Int :=
  mpath_go (fun x => range.a_begin + x)
    (lb_window count segments num_segments range)
    range.a_count
    (lb_load_count range count num_segments +
      lb_fill_count nt vt range count num_segments)
    d

/-- Natural-number form of `load_preceding`. -/
def lb_lpn (range : merge_range_t) : Nat :=
  if 0 < range.b_begin then 1 else 0

/-- The advance condition of one step of the upper-bounds merge walk. -/
def mpath_adv (a b : Int → Int) (ac bc : Int) (d : Nat) : Prop :=
  mpath_go a b ac bc d < ac ∧
    (bc ≤ (d : Int) - mpath_go a b ac bc d ∨
      a (mpath_go a b ac bc d) < b ((d : Int) - mpath_go a b ac bc d))

/-- Validity of an upper-bounds merge-path partition `(x, y)` of the global
merge of the counting output stream `0, …, count-1` with the segment-start
stream `segments[0 .. num_segments)`: every consumed element weakly precedes
every unconsumed one under the upper-bounds tie break (elements of B equal
to an element of A go first).  This is the contract of the host-side
partition search (spec: `partitions` are "merge-path crossings"). -/
def valid_mp (count : Int) (segments : Int → Int) (num_segments x y : Int) :
    Prop :=
  (x = 0 ∨ y = num_segments ∨ x - 1 < segments y) ∧
    (y = 0 ∨ x = count ∨ segments (y - 1) ≤ x)

/-- Documented preconditions of one CTA tile: template parameters are
positive, the tile rectangle sits inside the `count × num_segments` grid, the
tile spans exactly `nv = nt*vt` merge steps, the segment descriptor array is
non-decreasing with entries in `[0, count]`, and the two corners of the tile
are genuine upper-bounds merge-path partitions (the contract of the
host-supplied `partitions` array). -/
structure lb_pre (nt vt : Nat) (count : Int) (segments : Int → Int)
    (num_segments : Int) (range : merge_range_t) : Prop where
  hnt : 1 ≤ nt
  hvt : 1 ≤ vt
  ha0 : 0 ≤ range.a_begin
  ha1 : range.a_begin ≤ range.a_end
  ha2 : range.a_end ≤ count
  hb0 : 0 ≤ range.b_begin
  hb1 : range.b_begin ≤ range.b_end
  hb2 : range.b_end ≤ num_segments
  hsum : range.a_count + range.b_count = (nt : Int) * vt
  hmono : ∀ s s' : Int, 0 ≤ s → s ≤ s' → s' < num_segments →
    segments s ≤ segments s'
  hbnd : ∀ s : Int, 0 ≤ s → s < num_segments →
    0 ≤ segments s ∧ segments s ≤ count
  hv0 : valid_mp count segments num_segments range.a_begin range.b_begin
  hv1 : valid_mp count segments num_segments range.a_end range.b_end

/-- Whether the trailing B extension of `place_range` fires. -/
def lb_eps (range : merge_range_t) (count num_segments : Int) : Int :=
  if range.b_end < num_segments ∧ range.a_end < count then 1 else 0

/-- Segment-start array extended by the virtual terminal entry
`segments[num_segments] = count` used throughout the spec. -/
def seg_ext (count : Int) (segments : Int → Int) (num_segments s : Int) :
    Int :=
  if s < num_segments then segments s else count

/-- Staging phase of one tuple element of `cached_segment_load_t::load`
(source lines 171-177): all `nt` threads cooperatively run
`for(j = range.begin + tid; j < range.end; j += nt) shared[j] = it_i[j];`
then barrier.  The shared scratch is modelled in the absolute index space of
the `shared -= range.begin` bias, so slot `j` holds attribute of segment `j`. -/
def cached_stage (nt : Nat) (rbegin rend : Int) (it : Int → Int)
    (σ : Int → Int) : Int → Int :=
  (List.range nt).foldl
    (fun σ (tid : Nat) =>
      strided_loop nt 0 rend it (rend - rbegin).toNat (rbegin + (tid : Nat) : Int) σ)
    σ

/-- Register loads of one tuple element (source lines 180-182):
`get<i>(values[j]) = shared[segments[j]]` for each lane `j < vt`. -/
def cached_gather (vt : Nat) (σ : Int → Int) (segs : Nat → Int) :
    Nat → Int :=
  fun k => σ (segs k)

/-- Full `cached_segment_load_t` recursion over the tuple of iterators
(source lines 158-197): element `i` stages `iterators[i]` over
`[range.begin, range.end)` into the shared scratch (reusing it, sequenced by
barriers), gathers per-lane values, and recurses; the terminal
specialisation at the tuple arity does nothing.  The tuple of iterators is
modelled as a list of integer-valued iterators. -/
def cached_segment_load (nt vt : Nat) (rbegin rend : Int) (segs : Nat → Int) :
    List (Int → Int) → (Int → Int) → List (Nat → Int)
  | [], _ => []
  | it :: rest, σ =>
    cached_gather vt (cached_stage nt rbegin rend it σ) segs ::
      cached_segment_load nt vt rbegin rend segs rest
        (cached_stage nt rbegin rend it σ)

/-- The advance condition of the tile's merge walk at diagonal `d`. -/
def lb_adv (nt vt : Nat) (count : Int) (segments : Int → Int)
    (num_segments : Int) (range : merge_range_t) (d : Nat) : Prop :=
  mpath_adv (fun x => range.a_begin + x)
    (lb_window count segments num_segments range)
    range.a_count
    (lb_load_count range count num_segments +
      lb_fill_count nt vt range count num_segments)
    d

/-- The comparison `p = cur_item < b_shared[cur_segment + 1]` evaluated at
the state of thread `t` before step `k` (source line 116). -/
def lb_pbit (nt vt : Nat) (count : Int) (segments : Int → Int)
    (num_segments : Int) (range : merge_range_t) (σ0 : Int → Int)
    (t k : Nat) : Bool :=
  decide ((lb_thread_run nt vt count segments num_segments range σ0 t k).cur_item <
    lb_sigma1 nt vt count segments num_segments range σ0
      (range.a_count +
        ((lb_thread_run nt vt count segments num_segments range σ0 t k).cur_segment +
          1 - (place_range range count num_segments).b_begin)))

/-- The advance condition is decidable (it is a boolean combination of
integer comparisons). -/
instance lb_adv_decidable (nt vt : Nat) (count : Int) (segments : Int → Int)
    (num_segments : Int) (range : merge_range_t) (d : Nat) :
    Decidable (lb_adv nt vt count segments num_segments range d) := by
  unfold lb_adv mpath_adv
  infer_instance

/-- Closed form of the write list of thread `t`: one entry per advancing
diagonal of the thread's `vt` writing steps, carrying the written
`(cur_item, cur_segment)` pair expressed through the merge path. -/
def lb_writes_spec (nt vt : Nat) (count : Int) (segments : Int → Int)
    (num_segments : Int) (range : merge_range_t) (t : Nat) :
    List (Int × Int) :=
  (List.range vt).filterMap (fun k =>
    if lb_adv nt vt count segments num_segments range
        (vt * t + lb_lpn range + k) then
      some (range.a_begin +
          lb_path nt vt count segments num_segments range
            (vt * t + lb_lpn range + k),
        range.b_begin - lb_lp range +
          (((vt * t + lb_lpn range + k : Nat) : Int) -
            lb_path nt vt count segments num_segments range
              (vt * t + lb_lpn range + k)) - 1)
    else none)

theorem flagsOf_lt (q : Nat → Bool) (n : Nat) : flagsOf q n < 2 ^ n := by
  induction n with
  | zero => simp [flagsOf]
  | succ n ih =>
    have h2 : ((if q n then 1 else 0) <<< n) < 2 ^ (n + 1) := by
      rw [Nat.shiftLeft_eq]
      have : (if q n then (1 : Nat) else 0) ≤ 1 := by split <;> omega
      have hp : (0 : Nat) < 2 ^ n := Nat.pos_pow_of_pos n (by norm_num)
      calc (if q n then (1 : Nat) else 0) * 2 ^ n ≤ 1 * 2 ^ n :=
            Nat.mul_le_mul_right _ this
        _ < 2 ^ (n + 1) := by rw [Nat.pow_succ]; omega
    have h1 : flagsOf q n < 2 ^ (n + 1) :=
      lt_trans ih (Nat.pow_lt_pow_succ (by norm_num))
    exact Nat.bitwise_lt_two_pow h1 h2

theorem lor_two_pow_of_lt {x n : Nat} (h : x < 2 ^ n) :
    x ||| 2 ^ n = x + 2 ^ n := by
  apply Nat.eq_of_testBit_eq
  intro j
  rcases lt_trichotomy j n with hj | hj | hj
  · rw [Nat.testBit_lor, Nat.add_comm, Nat.testBit_two_pow_add_gt hj,
      Nat.testBit_two_pow_of_ne (by omega), Bool.or_false]
  · subst hj
    rw [Nat.testBit_lor, Nat.add_comm, Nat.testBit_two_pow_add_eq,
      Nat.testBit_lt_two_pow h, Nat.testBit_two_pow_self, Bool.or_true]
    rfl
  · have hxj : x + 2 ^ n < 2 ^ j := by
      have h1 : 2 ^ (n + 1) ≤ 2 ^ j := Nat.pow_le_pow_right (by norm_num) hj
      rw [Nat.pow_succ] at h1; omega
    rw [Nat.testBit_lor, Nat.testBit_lt_two_pow hxj,
      Nat.testBit_lt_two_pow (by
        have h1 : 2 ^ n ≤ 2 ^ j := Nat.pow_le_pow_right (by norm_num) (le_of_lt hj)
        omega),
      Nat.testBit_two_pow_of_ne (by omega), Bool.or_false]

theorem flagsOf_succ (q : Nat → Bool) (n : Nat) :
    flagsOf q (n + 1) = flagsOf q n + (if q n then 2 ^ n else 0) := by
  show flagsOf q n ||| ((if q n then 1 else 0) <<< n) = _
  rcases hq : q n with _ | _
  · simp [hq, Nat.shiftLeft_eq]
  · simp only [hq, if_true, Nat.shiftLeft_eq, Nat.one_mul]
    exact lor_two_pow_of_lt (flagsOf_lt q n)

theorem popcount_zero : popcount 0 = 0 := by
  rw [popcount]

theorem popcount_pos_eq (v : Nat) (hv : v ≠ 0) :
    popcount v = v % 2 + popcount (v / 2) := by
  obtain ⟨m, rfl⟩ : ∃ m, v = m + 1 := ⟨v - 1, by omega⟩
  rw [popcount]

theorem popcount_add_two_pow : ∀ (n x : Nat), x < 2 ^ n →
    popcount (x + 2 ^ n) = popcount x + 1 := by
  intro n
  induction n with
  | zero =>
    intro x hx
    interval_cases x
    rw [show (0 + 2 ^ 0 : Nat) = 1 by norm_num, popcount_pos_eq 1 (by omega)]
    norm_num [popcount_zero]
  | succ n ih =>
    intro x hx
    have step := popcount_pos_eq (x + 2 ^ (n + 1)) (by positivity)
    have hpw : (2 : Nat) ^ (n + 1) = 2 * 2 ^ n := by rw [Nat.pow_succ]; ring
    have hmod : (x + 2 ^ (n + 1)) % 2 = x % 2 := by omega
    have hdiv : (x + 2 ^ (n + 1)) / 2 = x / 2 + 2 ^ n := by omega
    have hx2 : x / 2 < 2 ^ n := by omega
    rw [step, hmod, hdiv, ih _ hx2]
    rcases Nat.eq_zero_or_pos x with h0 | hpos
    · subst h0
      norm_num [popcount_zero]
    · rw [popcount_pos_eq x (by omega)]
      ring

theorem testBit_flagsOf (q : Nat → Bool) (n k : Nat) :
    (flagsOf q n).testBit k = (decide (k < n) && q k) := by
  induction n with
  | zero => simp [flagsOf]
  | succ n ih =>
    show (flagsOf q n ||| ((if q n then 1 else 0) <<< n)).testBit k = _
    rw [Nat.testBit_lor, ih, Nat.testBit_shiftLeft]
    rcases lt_trichotomy k n with hk | hk | hk
    · simp [hk, Nat.lt_succ_of_lt hk, Nat.not_le_of_lt hk]
    · subst hk
      rcases hq : q k with _ | _ <;>
        simp [hq, Nat.lt_irrefl, Nat.lt_succ_self, Nat.testBit_zero]
    · have h1 : ¬ k < n := by omega
      have h2 : ¬ k < n + 1 := by omega
      have h3 : k - n ≠ 0 := by omega
      obtain ⟨m, hm⟩ : ∃ m, k - n = m + 1 := ⟨k - n - 1, by omega⟩
      rcases hq : q n with _ | _ <;>
        simp [h1, h2, Nat.le_of_lt hk, hm, Nat.testBit_succ, Nat.testBit_zero,
          Nat.div_eq_of_lt]

theorem popcount_flagsOf (q : Nat → Bool) (n : Nat) :
    popcount (flagsOf q n) = ((List.range n).filter q).length := by
  induction n with
  | zero => simp [flagsOf, popcount]
  | succ n ih =>
    rw [flagsOf_succ, List.range_succ, List.filter_append]
    rcases hq : q n with _ | _
    · simp [hq, ih]
    · simp only [hq, if_true, List.filter_cons, List.filter_nil]
      rw [popcount_add_two_pow n _ (flagsOf_lt q n), ih]
      simp

theorem flagsOf_land_two_pow_sub_one (q : Nat → Bool) (n m : Nat) :
    flagsOf q n &&& (2 ^ m - 1) = flagsOf q (min n m) := by
  apply Nat.eq_of_testBit_eq
  intro j
  rw [Nat.testBit_land, testBit_flagsOf, testBit_flagsOf,
    Nat.testBit_two_pow_sub_one]
  by_cases h1 : j < n <;> by_cases h2 : j < m <;>
    simp [h1, h2, Nat.lt_min, *]

theorem strided_loop_eq (nt : Nat) (base c : Int) (v : Int → Int)
    (hnt : 1 ≤ nt) : ∀ (fuel : Nat) (s : Int) (σ : Int → Int) (j : Int),
    (c - s).toNat ≤ fuel →
    strided_loop nt base c v fuel s σ j =
      if s ≤ j - base ∧ j - base < c ∧ (nt : Int) ∣ (j - base - s) then
        v (j - base)
      else σ j := by
  intro fuel
  induction fuel with
  | zero =>
    intro s σ j hf
    rw [strided_loop, if_neg]
    rintro ⟨h1, h2, -⟩
    omega
  | succ fuel ih =>
    intro s σ j hf
    rw [strided_loop]
    by_cases hs : s < c
    · rw [if_pos hs, ih (s + nt) _ j (by omega)]
      by_cases hj : j - base = s
      · have h1 : ¬ (s + (nt : Int) ≤ j - base ∧ j - base < c ∧
            (nt : Int) ∣ (j - base - (s + nt))) := by
          rintro ⟨h1, -, -⟩; omega
        rw [if_neg h1, if_pos ⟨by omega, by omega, by rw [hj]; simp⟩]
        have hjb : j = base + s := by omega
        rw [hjb, Function.update_same]
        congr 1
        omega
      · have hne : j ≠ base + s := by omega
        rw [Function.update_noteq hne]
        congr 1
        apply propext
        constructor
        · rintro ⟨h1, h2, h3⟩
          exact ⟨by omega, h2, by
            obtain ⟨m, hm⟩ := h3
            exact ⟨m + 1, by linarith⟩⟩
        · rintro ⟨h1, h2, h3⟩
          have hpos : 0 < j - base - s := by omega
          have hle : (nt : Int) ≤ j - base - s := Int.le_of_dvd hpos h3
          refine ⟨by omega, h2, ?_⟩
          obtain ⟨m, hm⟩ := h3
          exact ⟨m - 1, by linarith⟩
    · rw [if_neg hs, if_neg]
      rintro ⟨h1, h2, -⟩
      omega

theorem foldl_cons_apply {α β γ : Type} (f : (β → γ) → α → (β → γ))
    (σ : β → γ) (t : α) (l : List α) (j : β) :
    List.foldl f σ (t :: l) j = List.foldl f (f σ t) l j := rfl

theorem cta_strided_eq (nt : Nat) (base c : Int) (v : Int → Int)
    (σ : Int → Int) (hnt : 1 ≤ nt) (j : Int) :
    cta_strided nt base c v σ j =
      if 0 ≤ j - base ∧ j - base < c then v (j - base) else σ j := by
  have main : ∀ l : List Nat,
      l.foldl (fun σ (tid : Nat) =>
          strided_loop nt base c v c.toNat ((tid : Nat) : Int) σ) σ j =
        if ∃ tid ∈ l, (tid : Int) ≤ j - base ∧ j - base < c ∧
            (nt : Int) ∣ (j - base - tid) then
          v (j - base)
        else σ j := by
    intro l
    induction l generalizing σ with
    | nil => simp
    | cons t rest ih =>
      rw [foldl_cons_apply, ih]
      by_cases hrest : ∃ tid ∈ rest, (tid : Int) ≤ j - base ∧ j - base < c ∧
          (nt : Int) ∣ (j - base - tid)
      · rw [if_pos hrest, if_pos]
        obtain ⟨tid, htid, h⟩ := hrest
        exact ⟨tid, List.mem_cons_of_mem _ htid, h⟩
      · rw [if_neg hrest,
          strided_loop_eq nt base c v hnt c.toNat (t : Int) σ j (by omega)]
        by_cases ht : (t : Int) ≤ j - base ∧ j - base < c ∧
            (nt : Int) ∣ (j - base - t)
        · rw [if_pos ht, if_pos ⟨t, List.mem_cons_self t rest, ht⟩]
        · rw [if_neg ht, if_neg]
          rintro ⟨tid, htid, h⟩
          rcases List.mem_cons.mp htid with rfl | hmem
          · exact ht h
          · exact hrest ⟨tid, hmem, h⟩
  rw [cta_strided, main]
  by_cases hj : 0 ≤ j - base ∧ j - base < c
  · rw [if_pos hj, if_pos]
    refine ⟨(j - base).toNat % nt, List.mem_range.mpr (Nat.mod_lt _ (by omega)),
      ?_, hj.2, ?_⟩
    · have h2 := Nat.mod_le (j - base).toNat nt
      omega
    · refine ⟨((j - base).toNat / nt : Nat), ?_⟩
      have h2 := congrArg (Nat.cast : Nat → Int) (Nat.mod_add_div (j - base).toNat nt)
      push_cast at h2 ⊢
      have h3 : ((j - base).toNat : Int) = j - base := Int.toNat_of_nonneg hj.1
      linarith
  · rw [if_neg hj, if_neg]
    rintro ⟨tid, htid, h1, h2, -⟩
    have : (0 : Int) ≤ (tid : Int) := by positivity
    omega

theorem apply_writes_cons (a_begin : Int) (w : Int × Int)
    (rest : List (Int × Int)) (σ : Int → Int) :
    apply_writes a_begin (w :: rest) σ =
      apply_writes a_begin rest (Function.update σ (w.1 - a_begin) w.2) := rfl

theorem apply_writes_notin (a_begin : Int) :
    ∀ (ws : List (Int × Int)) (σ : Int → Int) (j : Int),
    (∀ w ∈ ws, w.1 - a_begin ≠ j) → apply_writes a_begin ws σ j = σ j := by
  intro ws
  induction ws with
  | nil => intro σ j _; rfl
  | cons w rest ih =>
    intro σ j h
    rw [apply_writes_cons, ih _ _ (fun w' hw' => h w' (List.mem_cons_of_mem _ hw'))]
    exact Function.update_noteq
      (by have := h w (List.mem_cons_self w rest); omega) _ _

theorem apply_writes_mem (a_begin : Int) :
    ∀ (ws : List (Int × Int)) (σ : Int → Int) (c v : Int),
    ws.Pairwise (fun w w' => w.1 ≠ w'.1) → (c, v) ∈ ws →
    apply_writes a_begin ws σ (c - a_begin) = v := by
  intro ws
  induction ws with
  | nil => intro σ c v _ hmem; exact absurd hmem (List.not_mem_nil _)
  | cons w rest ih =>
    intro σ c v hpair hmem
    rw [List.pairwise_cons] at hpair
    rw [apply_writes_cons]
    rcases List.mem_cons.mp hmem with heq | hmem'
    · rw [apply_writes_notin _ _ _ _ (fun w' hw' => by
        have h1 := hpair.1 w' hw'
        rw [← heq] at h1
        simp only [ne_eq]
        omega)]
      rw [← heq]
      exact Function.update_same _ _ _
    · exact ih _ c v hpair.2 hmem'

theorem lb_lp_eq_lpn (range : merge_range_t) :
    lb_lp range = (lb_lpn range : Int) := by
  rw [lb_lp, lb_lpn]
  split <;> simp

theorem lb_sigma1_eq (nt vt : Nat) (count : Int) (segments : Int → Int)
    (num_segments : Int) (range : merge_range_t) (σ0 : Int → Int)
    (hnt : 1 ≤ nt)
    (hL : 0 ≤ lb_load_count range count num_segments)
    (hF : 0 ≤ lb_fill_count nt vt range count num_segments) (j : Int) :
    lb_sigma1 nt vt count segments num_segments range σ0 j =
      if range.a_count ≤ j ∧
          j < range.a_count + lb_load_count range count num_segments +
            lb_fill_count nt vt range count num_segments then
        lb_window count segments num_segments range (j - range.a_count)
      else σ0 j := by
  rw [lb_sigma1, cta_strided_eq _ _ _ _ _ hnt, cta_strided_eq _ _ _ _ _ hnt,
    lb_window]
  by_cases h1 : 0 ≤ j - range.a_count ∧
      j - range.a_count < lb_load_count range count num_segments
  · rw [if_pos h1, if_pos (by omega), if_pos (by omega)]
  · rw [if_neg h1]
    by_cases h2 : 0 ≤ j - (range.a_count + lb_load_count range count num_segments) ∧
        j - (range.a_count + lb_load_count range count num_segments) <
          lb_fill_count nt vt range count num_segments
    · rw [if_pos h2, if_pos (by omega), if_neg (by omega)]
    · rw [if_neg h2, if_neg (by omega)]

theorem mpath_nonneg (a b : Int → Int) (ac bc : Int) (d : Nat) :
    0 ≤ mpath_go a b ac bc d := by
  induction d with
  | zero => simp [mpath_go]
  | succ d ih =>
    rw [mpath_go]
    split <;> omega

theorem mpath_le_diag (a b : Int → Int) (ac bc : Int) (d : Nat) :
    mpath_go a b ac bc d ≤ (d : Int) := by
  induction d with
  | zero => simp [mpath_go]
  | succ d ih =>
    rw [mpath_go]
    push_cast
    split <;> omega

theorem mpath_le_aCount (a b : Int → Int) (ac bc : Int) (hac : 0 ≤ ac)
    (d : Nat) : mpath_go a b ac bc d ≤ ac := by
  induction d with
  | zero => simpa [mpath_go] using hac
  | succ d ih =>
    rw [mpath_go]
    split <;> rename_i h
    · omega
    · exact ih

theorem mpath_succ_cases (a b : Int → Int) (ac bc : Int) (d : Nat) :
    mpath_go a b ac bc (d + 1) = mpath_go a b ac bc d ∨
      mpath_go a b ac bc (d + 1) = mpath_go a b ac bc d + 1 := by
  rw [mpath_go]
  split
  · right; rfl
  · left; rfl

theorem mpath_mono (a b : Int → Int) (ac bc : Int) {d d' : Nat}
    (h : d ≤ d') : mpath_go a b ac bc d ≤ mpath_go a b ac bc d' := by
  induction d' with
  | zero =>
    have hd0 : d = 0 := by omega
    subst hd0
    exact le_refl _
  | succ d' ih =>
    rcases Nat.lt_or_ge d (d' + 1) with hd | hd
    · have h1 : mpath_go a b ac bc d ≤ mpath_go a b ac bc d' := by
        rcases Nat.eq_or_lt_of_le (Nat.le_of_lt_succ hd) with rfl | hlt
        · exact le_refl _
        · exact ih (by omega)
      rcases mpath_succ_cases a b ac bc d' with h2 | h2 <;> omega
    · have : d = d' + 1 := by omega
      subst this
      exact le_refl _

theorem mpath_succ_of_adv (a b : Int → Int) (ac bc : Int) (d : Nat)
    (h : mpath_adv a b ac bc d) :
    mpath_go a b ac bc (d + 1) = mpath_go a b ac bc d + 1 := by
  have h' : mpath_go a b ac bc d < ac ∧
      (bc ≤ (d : Int) - mpath_go a b ac bc d ∨
        a (mpath_go a b ac bc d) < b ((d : Int) - mpath_go a b ac bc d)) := h
  rw [mpath_go, if_pos h']

theorem mpath_succ_of_not_adv (a b : Int → Int) (ac bc : Int) (d : Nat)
    (h : ¬ mpath_adv a b ac bc d) :
    mpath_go a b ac bc (d + 1) = mpath_go a b ac bc d := by
  have h' : ¬ (mpath_go a b ac bc d < ac ∧
      (bc ≤ (d : Int) - mpath_go a b ac bc d ∨
        a (mpath_go a b ac bc d) < b ((d : Int) - mpath_go a b ac bc d))) := h
  rw [mpath_go, if_neg h']

theorem mpath_adv_iff (a b : Int → Int) (ac bc : Int) (d : Nat) :
    mpath_adv a b ac bc d ↔
      mpath_go a b ac bc (d + 1) = mpath_go a b ac bc d + 1 := by
  constructor
  · exact mpath_succ_of_adv a b ac bc d
  · intro h
    by_contra hadv
    rw [mpath_succ_of_not_adv a b ac bc d hadv] at h
    omega

/-- Congruence of the walk in the B keys: only reads on `[0, bc)` matter. -/
theorem mpath_congr (a b b' : Int → Int) (ac bc : Int)
    (hb : ∀ y, 0 ≤ y → y < bc → b y = b' y) (d : Nat) :
    mpath_go a b ac bc d = mpath_go a b' ac bc d := by
  induction d with
  | zero => rfl
  | succ d ih =>
    rw [mpath_go, mpath_go, ih]
    set x := mpath_go a b' ac bc d with hx
    have h0 : 0 ≤ x := mpath_nonneg a b' ac bc d
    have h1 : x ≤ (d : Int) := mpath_le_diag a b' ac bc d
    by_cases hy : bc ≤ (d : Int) - x
    · simp [hy]
    · have : b ((d : Int) - x) = b' ((d : Int) - x) := hb _ (by omega) (by omega)
      rw [this]

theorem place_range_eq (range : merge_range_t) (count num_segments : Int) :
    place_range range count num_segments =
      { a_begin := range.a_begin, a_end := range.a_end,
        b_begin := range.b_begin - lb_lp range,
        b_end := range.b_end + lb_eps range count num_segments } := by
  unfold place_range lb_eps
  by_cases hc : range.b_end < num_segments ∧ range.a_end < count <;>
    simp [hc]

theorem lb_lp01 (range : merge_range_t) :
    lb_lp range = 0 ∨ lb_lp range = 1 := by
  rw [lb_lp]; split <;> simp

theorem lb_eps01 (range : merge_range_t) (count num_segments : Int) :
    lb_eps range count num_segments = 0 ∨
      lb_eps range count num_segments = 1 := by
  rw [lb_eps]; split <;> simp

theorem lb_load_count_eq (range : merge_range_t) (count num_segments : Int) :
    lb_load_count range count num_segments =
      range.b_count + lb_lp range + lb_eps range count num_segments := by
  rw [lb_load_count, place_range_eq, merge_range_t.b_count,
    merge_range_t.b_count]
  ring

theorem lb_fill_count_eq (nt vt : Nat) (count : Int) (segments : Int → Int)
    (num_segments : Int) (range : merge_range_t)
    (h : lb_pre nt vt count segments num_segments range) :
    lb_fill_count nt vt range count num_segments =
      1 - lb_eps range count num_segments := by
  have hsum := h.hsum
  rw [merge_range_t.a_count, merge_range_t.b_count] at hsum
  rw [lb_fill_count, lb_load_count_eq, merge_range_t.b_count,
    merge_range_t.a_count]
  omega

theorem lb_lp_pos_b_begin (range : merge_range_t) :
    lb_lp range = 1 → 1 ≤ range.b_begin := by
  rw [lb_lp]; split <;> omega

theorem lb_lp_zero_b_begin (nt vt : Nat) (count : Int)
    (segments : Int → Int) (num_segments : Int) (range : merge_range_t)
    (h : lb_pre nt vt count segments num_segments range) :
    lb_lp range = 0 → range.b_begin = 0 := by
  have := h.hb0
  rw [lb_lp]; split <;> omega

theorem lb_b1_nonneg (nt vt : Nat) (count : Int) (segments : Int → Int)
    (num_segments : Int) (range : merge_range_t)
    (h : lb_pre nt vt count segments num_segments range) :
    0 ≤ range.b_begin - lb_lp range := by
  have := h.hb0
  rw [lb_lp]; split <;> omega

theorem lb_window_top (nt vt : Nat) (count : Int) (segments : Int → Int)
    (num_segments : Int) (range : merge_range_t)
    (h : lb_pre nt vt count segments num_segments range) :
    range.b_begin - lb_lp range + lb_load_count range count num_segments ≤
      num_segments := by
  have := h.hb2
  rw [lb_load_count_eq, merge_range_t.b_count, lb_eps]
  split <;> omega

theorem lb_load_count_nonneg (nt vt : Nat) (count : Int)
    (segments : Int → Int) (num_segments : Int) (range : merge_range_t)
    (h : lb_pre nt vt count segments num_segments range) :
    0 ≤ lb_load_count range count num_segments := by
  have h1 := h.hb1
  rcases lb_lp01 range with h2 | h2 <;>
    rcases lb_eps01 range count num_segments with h3 | h3 <;>
      rw [lb_load_count_eq, merge_range_t.b_count] <;> omega

theorem lb_count_nonneg (nt vt : Nat) (count : Int) (segments : Int → Int)
    (num_segments : Int) (range : merge_range_t)
    (h : lb_pre nt vt count segments num_segments range) : 0 ≤ count :=
  le_trans (le_trans h.ha0 h.ha1) h.ha2

theorem lb_a_count_nonneg (nt vt : Nat) (count : Int) (segments : Int → Int)
    (num_segments : Int) (range : merge_range_t)
    (h : lb_pre nt vt count segments num_segments range) :
    0 ≤ range.a_count := by
  have := h.ha1
  rw [merge_range_t.a_count]
  omega

theorem lb_a_count_le_nv (nt vt : Nat) (count : Int) (segments : Int → Int)
    (num_segments : Int) (range : merge_range_t)
    (h : lb_pre nt vt count segments num_segments range) :
    range.a_count ≤ (nt : Int) * vt := by
  have h1 := h.hsum
  have h2 := h.hb1
  rw [merge_range_t.b_count] at h1
  omega

theorem lb_bc_eq (nt vt : Nat) (count : Int) (segments : Int → Int)
    (num_segments : Int) (range : merge_range_t)
    (h : lb_pre nt vt count segments num_segments range) :
    lb_load_count range count num_segments +
      lb_fill_count nt vt range count num_segments =
      (nt : Int) * vt + 1 + lb_lp range - range.a_count := by
  rw [lb_fill_count]
  ring

theorem lb_window_le_count (nt vt : Nat) (count : Int)
    (segments : Int → Int) (num_segments : Int) (range : merge_range_t)
    (h : lb_pre nt vt count segments num_segments range) (y : Int)
    (hy : 0 ≤ y) :
    lb_window count segments num_segments range y ≤ count := by
  rw [lb_window, place_range_eq]
  dsimp only
  split <;> rename_i hsplit
  · refine (h.hbnd _ ?_ ?_).2
    · have := lb_b1_nonneg nt vt count segments num_segments range h
      omega
    · have := lb_window_top nt vt count segments num_segments range h
      omega
  · exact le_refl count

theorem lb_path_zero (nt vt : Nat) (count : Int) (segments : Int → Int)
    (num_segments : Int) (range : merge_range_t) :
    lb_path nt vt count segments num_segments range 0 = 0 := rfl

theorem lb_path_nonneg (nt vt : Nat) (count : Int) (segments : Int → Int)
    (num_segments : Int) (range : merge_range_t) (d : Nat) :
    0 ≤ lb_path nt vt count segments num_segments range d :=
  mpath_nonneg _ _ _ _ d

theorem lb_path_le_diag (nt vt : Nat) (count : Int) (segments : Int → Int)
    (num_segments : Int) (range : merge_range_t) (d : Nat) :
    lb_path nt vt count segments num_segments range d ≤ (d : Int) :=
  mpath_le_diag _ _ _ _ d

theorem lb_path_le_ac (nt vt : Nat) (count : Int) (segments : Int → Int)
    (num_segments : Int) (range : merge_range_t)
    (hac : 0 ≤ range.a_count) (d : Nat) :
    lb_path nt vt count segments num_segments range d ≤ range.a_count :=
  mpath_le_aCount _ _ _ _ hac d

theorem lb_path_mono (nt vt : Nat) (count : Int) (segments : Int → Int)
    (num_segments : Int) (range : merge_range_t) {d d' : Nat} (hdd : d ≤ d') :
    lb_path nt vt count segments num_segments range d ≤
      lb_path nt vt count segments num_segments range d' :=
  mpath_mono _ _ _ _ hdd

theorem lb_path_succ_adv (nt vt : Nat) (count : Int) (segments : Int → Int)
    (num_segments : Int) (range : merge_range_t) (d : Nat)
    (h : lb_adv nt vt count segments num_segments range d) :
    lb_path nt vt count segments num_segments range (d + 1) =
      lb_path nt vt count segments num_segments range d + 1 :=
  mpath_succ_of_adv _ _ _ _ d h

theorem lb_path_succ_not_adv (nt vt : Nat) (count : Int)
    (segments : Int → Int) (num_segments : Int) (range : merge_range_t)
    (d : Nat) (h : ¬ lb_adv nt vt count segments num_segments range d) :
    lb_path nt vt count segments num_segments range (d + 1) =
      lb_path nt vt count segments num_segments range d :=
  mpath_succ_of_not_adv _ _ _ _ d h

theorem lb_adv_iff (nt vt : Nat) (count : Int) (segments : Int → Int)
    (num_segments : Int) (range : merge_range_t) (d : Nat) :
    lb_adv nt vt count segments num_segments range d ↔
      lb_path nt vt count segments num_segments range d < range.a_count ∧
        (lb_load_count range count num_segments +
            lb_fill_count nt vt range count num_segments ≤
            (d : Int) - lb_path nt vt count segments num_segments range d ∨
          range.a_begin + lb_path nt vt count segments num_segments range d <
            lb_window count segments num_segments range
              ((d : Int) - lb_path nt vt count segments num_segments range d)) :=
  Iff.rfl

theorem lb_path_y_le (nt vt : Nat) (count : Int) (segments : Int → Int)
    (num_segments : Int) (range : merge_range_t)
    (h : lb_pre nt vt count segments num_segments range) :
    ∀ d : Nat, (d : Int) ≤ (nt : Int) * vt + lb_lp range →
      (d : Int) - lb_path nt vt count segments num_segments range d ≤
        lb_load_count range count num_segments +
          lb_fill_count nt vt range count num_segments - 1 := by
  have hβ := lb_bc_eq nt vt count segments num_segments range h
  have hacnv := lb_a_count_le_nv nt vt count segments num_segments range h
  have hac0 := lb_a_count_nonneg nt vt count segments num_segments range h
  have hlp01 := lb_lp01 range
  have hF := lb_fill_count_eq nt vt count segments num_segments range h
  have heps01 := lb_eps01 range count num_segments
  intro d
  induction d with
  | zero =>
    intro _
    rw [lb_path_zero]
    push_cast
    omega
  | succ d ih =>
    intro hd
    have hd1 : (d : Int) + 1 ≤ (nt : Int) * vt + lb_lp range := by
      push_cast at hd
      omega
    have hyd := ih (by omega)
    by_cases hadv : lb_adv nt vt count segments num_segments range d
    · rw [lb_path_succ_adv nt vt count segments num_segments range d hadv]
      push_cast
      omega
    · rw [lb_path_succ_not_adv nt vt count segments num_segments range d hadv]
      push_cast
      by_contra hcon
      have hx_le := lb_path_le_ac nt vt count segments num_segments range hac0 d
      have hx_nonneg := lb_path_nonneg nt vt count segments num_segments range d
      have hx_le_d := lb_path_le_diag nt vt count segments num_segments range d
      -- the B cursor sits on the last window entry
      have hyeq : (d : Int) - lb_path nt vt count segments num_segments range d =
          lb_load_count range count num_segments +
            lb_fill_count nt vt range count num_segments - 1 := by omega
      rw [lb_adv_iff] at hadv
      push_neg at hadv
      by_cases hxac : lb_path nt vt count segments num_segments range d <
          range.a_count
      · obtain ⟨-, hWA⟩ := hadv hxac
        -- the window value at the last entry exceeds every in-range A key
        rcases heps01 with heps | heps
        · -- fill_count = 1: the last entry is the sentinel `count`
          have hW : lb_window count segments num_segments range
              ((d : Int) - lb_path nt vt count segments num_segments range d) =
              count := by
            rw [lb_window, if_neg (by omega)]
          rw [hW] at hWA
          have hae := h.ha2
          have haeq : range.a_count = range.a_end - range.a_begin := rfl
          omega
        · -- fill_count = 0: the last entry is segments[b_end], past the tile
          have hW : lb_window count segments num_segments range
              ((d : Int) - lb_path nt vt count segments num_segments range d) =
              segments (range.b_begin - lb_lp range +
                ((d : Int) - lb_path nt vt count segments num_segments range d)) := by
            rw [lb_window, place_range_eq, if_pos (by omega)]
          have harg : range.b_begin - lb_lp range +
              ((d : Int) - lb_path nt vt count segments num_segments range d) =
              range.b_end := by
            have hLeq := lb_load_count_eq range count num_segments
            rw [merge_range_t.b_count] at hLeq
            omega
          rw [hW, harg] at hWA
          -- the extension fired, so b_end < num_segments and a_end < count
          have hcond : range.b_end < num_segments ∧ range.a_end < count := by
            by_contra hc
            rw [lb_eps, if_neg hc] at heps
            omega
          rcases h.hv1.1 with hae0 | hbn | hlt
          · have haeq : range.a_count = range.a_end - range.a_begin := rfl
            have := h.ha0
            omega
          · omega
          · have haeq : range.a_count = range.a_end - range.a_begin := rfl
            omega
      · -- A exhausted: the diagonal is already the last one of the tile
        omega

theorem lb_path_y_le_L (nt vt : Nat) (count : Int) (segments : Int → Int)
    (num_segments : Int) (range : merge_range_t)
    (h : lb_pre nt vt count segments num_segments range) :
    ∀ d : Nat, lb_path nt vt count segments num_segments range d <
        range.a_count →
      (d : Int) - lb_path nt vt count segments num_segments range d ≤
        lb_load_count range count num_segments := by
  have hL0 := lb_load_count_nonneg nt vt count segments num_segments range h
  have hac0 := lb_a_count_nonneg nt vt count segments num_segments range h
  intro d
  induction d with
  | zero =>
    intro _
    rw [lb_path_zero]
    simpa using hL0
  | succ d ih =>
    intro hx1
    by_cases hadv : lb_adv nt vt count segments num_segments range d
    · rw [lb_path_succ_adv nt vt count segments num_segments range d hadv] at hx1 ⊢
      have hxd : lb_path nt vt count segments num_segments range d <
          range.a_count := (lb_adv_iff _ _ _ _ _ _ _ |>.mp hadv).1
      have := ih hxd
      push_cast
      omega
    · rw [lb_path_succ_not_adv nt vt count segments num_segments range d hadv] at hx1 ⊢
      rw [lb_adv_iff] at hadv
      push_neg at hadv
      obtain ⟨hybc, hWA⟩ := hadv hx1
      -- if the cursor were at or past the sentinel region, the sentinel
      -- `count` would have to be at most an in-range A key: impossible
      by_contra hcon
      push_cast at hcon
      have hyL : lb_load_count range count num_segments ≤
          (d : Int) - lb_path nt vt count segments num_segments range d := by
        omega
      have hW : lb_window count segments num_segments range
          ((d : Int) - lb_path nt vt count segments num_segments range d) =
          count := by
        rw [lb_window, if_neg (by omega)]
      rw [hW] at hWA
      have hae := h.ha2
      have haeq : range.a_count = range.a_end - range.a_begin := rfl
      omega

theorem lb_path_low_bound (nt vt : Nat) (count : Int) (segments : Int → Int)
    (num_segments : Int) (range : merge_range_t)
    (h : lb_pre nt vt count segments num_segments range) :
    ∀ d : Nat, lb_path nt vt count segments num_segments range d <
        range.a_count →
      1 ≤ (d : Int) - lb_path nt vt count segments num_segments range d →
      lb_window count segments num_segments range
          ((d : Int) - lb_path nt vt count segments num_segments range d - 1) ≤
        range.a_begin + lb_path nt vt count segments num_segments range d := by
  intro d
  induction d with
  | zero =>
    intro _ hy
    rw [lb_path_zero] at hy
    omega
  | succ d ih =>
    intro hx1 hy1
    by_cases hadv : lb_adv nt vt count segments num_segments range d
    · rw [lb_path_succ_adv nt vt count segments num_segments range d hadv] at hx1 hy1 ⊢
      have hxd : lb_path nt vt count segments num_segments range d <
          range.a_count := (lb_adv_iff _ _ _ _ _ _ _ |>.mp hadv).1
      have harg : ((d : Nat) + 1 : Int) -
          (lb_path nt vt count segments num_segments range d + 1) =
          (d : Int) - lb_path nt vt count segments num_segments range d := by
        push_cast
        ring
      rw [show (((d + 1 : Nat)) : Int) = (d : Int) + 1 by push_cast; ring] at hy1 ⊢
      have hprev := ih hxd (by omega)
      calc lb_window count segments num_segments range
            ((d : Int) + 1 - (lb_path nt vt count segments num_segments range d + 1) - 1)
          = lb_window count segments num_segments range
            ((d : Int) - lb_path nt vt count segments num_segments range d - 1) := by
            congr 1
            ring
        _ ≤ range.a_begin + lb_path nt vt count segments num_segments range d :=
            hprev
        _ ≤ range.a_begin + (lb_path nt vt count segments num_segments range d + 1) :=
            by omega
    · rw [lb_path_succ_not_adv nt vt count segments num_segments range d hadv] at hx1 ⊢
      rw [lb_adv_iff] at hadv
      push_neg at hadv
      obtain ⟨hybc, hWA⟩ := hadv hx1
      calc lb_window count segments num_segments range
            (((d + 1 : Nat) : Int) - lb_path nt vt count segments num_segments range d - 1)
          = lb_window count segments num_segments range
            ((d : Int) - lb_path nt vt count segments num_segments range d) := by
            congr 1
            push_cast
            ring
        _ ≤ range.a_begin + lb_path nt vt count segments num_segments range d :=
            hWA

theorem lb_not_adv_zero (nt vt : Nat) (count : Int) (segments : Int → Int)
    (num_segments : Int) (range : merge_range_t)
    (h : lb_pre nt vt count segments num_segments range)
    (hstart : lb_lp range = 1 ∨
      (1 ≤ num_segments ∧ segments 0 = 0)) :
    ¬ lb_adv nt vt count segments num_segments range 0 := by
  have hac0 := lb_a_count_nonneg nt vt count segments num_segments range h
  have hL0 := lb_load_count_nonneg nt vt count segments num_segments range h
  have hβ := lb_bc_eq nt vt count segments num_segments range h
  have hacnv := lb_a_count_le_nv nt vt count segments num_segments range h
  have hlp01 := lb_lp01 range
  have hLeq := lb_load_count_eq range count num_segments
  have heps01 := lb_eps01 range count num_segments
  rw [lb_adv_iff, lb_path_zero]
  simp only [Nat.cast_zero, sub_zero, add_zero, zero_sub, neg_zero]
  rintro ⟨hx, hor⟩
  rcases hor with hbc | hAW
  · omega
  rcases lb_lp01 range with hlp | hlp
  · -- no preceding element was loaded, so the tile starts at b_begin = 0
    have hb0 := lb_lp_zero_b_begin nt vt count segments num_segments range h hlp
    rcases hstart with hlp1 | ⟨hnum, hcsr⟩
    · omega
    by_cases hLpos : 0 < lb_load_count range count num_segments
    · -- the first window entry is segments[0] = 0 ≤ a_begin
      rw [lb_window, place_range_eq, if_pos hLpos] at hAW
      dsimp only at hAW
      rw [show range.b_begin - lb_lp range + 0 = 0 by omega, hcsr] at hAW
      have := h.ha0
      omega
    · -- empty window: possible only for a tile ending at (count, 0),
      -- which the end partition rules out
      have hbcnt : range.b_count = 0 := by
        rw [merge_range_t.b_count]
        have h1 := h.hb1
        rw [merge_range_t.b_count] at hLeq
        omega
      have heps : lb_eps range count num_segments = 0 := by
        rw [merge_range_t.b_count] at hLeq hbcnt
        omega
      have hbe : range.b_end = 0 := by
        rw [merge_range_t.b_count] at hbcnt
        omega
      have haec : range.a_end = count := by
        by_contra hne
        rw [lb_eps, if_pos ⟨by omega, lt_of_le_of_ne h.ha2 hne⟩] at heps
        omega
      have haceq : range.a_count = range.a_end - range.a_begin := rfl
      have ha0 := h.ha0
      have ha2 := h.ha2
      rcases h.hv1.1 with hae0 | hben | hlt
      · omega
      · omega
      · rw [hbe, hcsr] at hlt
        omega
  · -- a preceding element was loaded: the start partition bounds it
    have hb1 := lb_lp_pos_b_begin range hlp
    have hLpos : 0 < lb_load_count range count num_segments := by
      have h1 := h.hb1
      rw [merge_range_t.b_count] at hLeq
      omega
    rw [lb_window, place_range_eq, if_pos hLpos] at hAW
    dsimp only at hAW
    rw [show range.b_begin - lb_lp range + 0 = range.b_begin - 1 by omega] at hAW
    rcases h.hv0.2 with hb0 | hacount | hseg
    · omega
    · -- a_begin = count: segment entries are at most count
      have harg : 0 ≤ range.b_begin - 1 ∧ range.b_begin - 1 < num_segments := by
        have := h.hb2
        have := h.hb1
        omega
      have := (h.hbnd _ harg.1 harg.2).2
      omega
    · omega

theorem lb_path_total (nt vt : Nat) (count : Int) (segments : Int → Int)
    (num_segments : Int) (range : merge_range_t)
    (h : lb_pre nt vt count segments num_segments range) :
    lb_path nt vt count segments num_segments range (nt * vt + lb_lpn range) =
      range.a_count := by
  have hcast : ((nt * vt + lb_lpn range : Nat) : Int) =
      (nt : Int) * vt + lb_lp range := by
    rw [lb_lp_eq_lpn]
    push_cast
    ring
  have hy := lb_path_y_le nt vt count segments num_segments range h
    (nt * vt + lb_lpn range) (by rw [hcast])
  have hle := lb_path_le_ac nt vt count segments num_segments range
    (lb_a_count_nonneg nt vt count segments num_segments range h)
    (nt * vt + lb_lpn range)
  have hβ := lb_bc_eq nt vt count segments num_segments range h
  omega

theorem lb_adv_iff_lt (nt vt : Nat) (count : Int) (segments : Int → Int)
    (num_segments : Int) (range : merge_range_t)
    (h : lb_pre nt vt count segments num_segments range) (d : Nat)
    (hd : (d : Int) ≤ (nt : Int) * vt + lb_lp range - 1) :
    lb_adv nt vt count segments num_segments range d ↔
      range.a_begin + lb_path nt vt count segments num_segments range d <
        lb_window count segments num_segments range
          ((d : Int) - lb_path nt vt count segments num_segments range d) := by
  have hβ := lb_bc_eq nt vt count segments num_segments range h
  have hac0 := lb_a_count_nonneg nt vt count segments num_segments range h
  have hF := lb_fill_count_eq nt vt count segments num_segments range h
  have heps01 := lb_eps01 range count num_segments
  have hLeq := lb_load_count_eq range count num_segments
  have hlp01 := lb_lp01 range
  have hb1 := lb_b1_nonneg nt vt count segments num_segments range h
  have hx_le_d := lb_path_le_diag nt vt count segments num_segments range d
  have hx_nonneg := lb_path_nonneg nt vt count segments num_segments range d
  constructor
  · intro hadv
    obtain ⟨hx, hor⟩ := (lb_adv_iff nt vt count segments num_segments range d).mp hadv
    rcases hor with hbc | hAW
    · exfalso
      have hy := lb_path_y_le nt vt count segments num_segments range h d (by omega)
      omega
    · exact hAW
  · intro hAW
    rw [lb_adv_iff]
    refine ⟨?_, Or.inr hAW⟩
    by_contra hxge
    push_neg at hxge
    have hx_le := lb_path_le_ac nt vt count segments num_segments range hac0 d
    have hxeq : lb_path nt vt count segments num_segments range d =
        range.a_count := le_antisymm hx_le hxge
    -- the window entry at the cursor would have to exceed a_end, but every
    -- entry up to segments[b_end - 1] is at most a_end by the end partition
    have haceq : range.a_count = range.a_end - range.a_begin := rfl
    have hyL : (d : Int) - lb_path nt vt count segments num_segments range d <
        lb_load_count range count num_segments := by
      rw [merge_range_t.b_count] at hLeq
      omega
    rw [lb_window, place_range_eq, if_pos hyL] at hAW
    dsimp only at hAW
    have harg_nonneg : 0 ≤ range.b_begin - lb_lp range +
        ((d : Int) - lb_path nt vt count segments num_segments range d) := by
      omega
    have harg_le : range.b_begin - lb_lp range +
        ((d : Int) - lb_path nt vt count segments num_segments range d) ≤
        range.b_end - 1 := by
      rw [merge_range_t.b_count] at hLeq
      omega
    have hbe2 := h.hb2
    rcases h.hv1.2 with hbe0 | haec | hseg
    · omega
    · have := (h.hbnd _ harg_nonneg (by omega)).2
      omega
    · have hmono := h.hmono _ _ harg_nonneg harg_le (by omega)
      omega

theorem lb_sigma1_window (nt vt : Nat) (count : Int) (segments : Int → Int)
    (num_segments : Int) (range : merge_range_t) (σ0 : Int → Int)
    (h : lb_pre nt vt count segments num_segments range) (y : Int)
    (hy0 : 0 ≤ y)
    (hy1 : y < lb_load_count range count num_segments +
      lb_fill_count nt vt range count num_segments) :
    lb_sigma1 nt vt count segments num_segments range σ0 (range.a_count + y) =
      lb_window count segments num_segments range y := by
  have hF := lb_fill_count_eq nt vt count segments num_segments range h
  have heps01 := lb_eps01 range count num_segments
  rw [lb_sigma1_eq nt vt count segments num_segments range σ0 h.hnt
    (lb_load_count_nonneg nt vt count segments num_segments range h)
    (by omega)]
  rw [if_pos ⟨by omega, by omega⟩]
  congr 1
  ring

theorem lb_placement_range (nt vt : Nat) (count : Int) (segments : Int → Int)
    (num_segments : Int) (range : merge_range_t) (σ0 : Int → Int) (t : Nat) :
    (lb_placement nt vt count segments num_segments range σ0 t).range =
      place_range range count num_segments := rfl

theorem lb_thread_run_zero (nt vt : Nat) (count : Int) (segments : Int → Int)
    (num_segments : Int) (range : merge_range_t) (σ0 : Int → Int) (t : Nat) :
    lb_thread_run nt vt count segments num_segments range σ0 t 0 =
      { cur_item :=
          (lb_placement nt vt count segments num_segments range σ0 t).a_index,
        cur_segment :=
          (lb_placement nt vt count segments num_segments range σ0 t).b_index,
        merge_flags := 0, writes := [] } := rfl

theorem lb_thread_run_succ (nt vt : Nat) (count : Int) (segments : Int → Int)
    (num_segments : Int) (range : merge_range_t) (σ0 : Int → Int)
    (t n : Nat) :
    lb_thread_run nt vt count segments num_segments range σ0 t (n + 1) =
      lb_step (lb_sigma1 nt vt count segments num_segments range σ0)
        range.a_count (place_range range count num_segments).b_begin vt
        (lb_thread_run nt vt count segments num_segments range σ0 t n) n := by
  rw [lb_thread_run, lb_thread_run, List.range_succ, List.foldl_append,
    List.foldl_cons, List.foldl_nil]
  rfl

theorem lb_step_flags (σ1 : Int → Int) (ac b1 : Int) (vt : Nat)
    (s : merge_state) (i : Nat) :
    (lb_step σ1 ac b1 vt s i).merge_flags =
      s.merge_flags |||
        ((if decide (s.cur_item < σ1 (ac + (s.cur_segment + 1 - b1)))
          then 1 else 0) <<< i) := by
  rw [lb_step]
  split <;> rfl

theorem lb_step_writes (σ1 : Int → Int) (ac b1 : Int) (vt : Nat)
    (s : merge_state) (i : Nat) :
    (lb_step σ1 ac b1 vt s i).writes =
      if decide (s.cur_item < σ1 (ac + (s.cur_segment + 1 - b1))) &&
          decide (i < vt) then
        s.writes ++ [(s.cur_item, s.cur_segment)]
      else s.writes := by
  rw [lb_step]
  split <;> rfl

theorem lb_step_cur_pos (σ1 : Int → Int) (ac b1 : Int) (vt : Nat)
    (s : merge_state) (i : Nat)
    (hc : (decide (s.cur_item < σ1 (ac + (s.cur_segment + 1 - b1))) &&
      decide (i < vt)) = true) :
    (lb_step σ1 ac b1 vt s i).cur_item = s.cur_item + 1 ∧
      (lb_step σ1 ac b1 vt s i).cur_segment = s.cur_segment := by
  rw [lb_step]
  rw [if_pos hc]
  exact ⟨rfl, rfl⟩

theorem lb_step_cur_neg (σ1 : Int → Int) (ac b1 : Int) (vt : Nat)
    (s : merge_state) (i : Nat)
    (hc : ¬ (decide (s.cur_item < σ1 (ac + (s.cur_segment + 1 - b1))) &&
      decide (i < vt)) = true) :
    (lb_step σ1 ac b1 vt s i).cur_item = s.cur_item ∧
      (lb_step σ1 ac b1 vt s i).cur_segment = s.cur_segment + 1 := by
  rw [lb_step]
  rw [if_neg hc]
  exact ⟨rfl, rfl⟩

theorem lb_diag_cast (vt : Nat) (range : merge_range_t) (t i : Nat) :
    ((vt * t + lb_lpn range + i : Nat) : Int) =
      lb_diag vt range t + i := by
  rw [lb_diag, lb_lp_eq_lpn]
  push_cast
  ring

theorem lb_mp_eq_path (nt vt : Nat) (count : Int) (segments : Int → Int)
    (num_segments : Int) (range : merge_range_t) (σ0 : Int → Int)
    (h : lb_pre nt vt count segments num_segments range) (t : Nat) :
    lb_mp nt vt count segments num_segments range σ0 t =
      lb_path nt vt count segments num_segments range
        (vt * t + lb_lpn range) := by
  rw [lb_mp, merge_path, lb_path]
  have htoNat : (lb_diag vt range t).toNat = vt * t + lb_lpn range := by
    rw [show lb_diag vt range t = ((vt * t + lb_lpn range : Nat) : Int) by
      rw [lb_diag, lb_lp_eq_lpn]; push_cast; ring]
    exact Int.toNat_natCast _
  rw [htoNat]
  exact mpath_congr _ _ _ _ _
    (fun y hy0 hy1 =>
      lb_sigma1_window nt vt count segments num_segments range σ0 h y hy0 hy1) _

theorem lb_run_flags (nt vt : Nat) (count : Int) (segments : Int → Int)
    (num_segments : Int) (range : merge_range_t) (σ0 : Int → Int)
    (t : Nat) : ∀ n : Nat,
    (lb_thread_run nt vt count segments num_segments range σ0 t n).merge_flags =
      flagsOf (lb_pbit nt vt count segments num_segments range σ0 t) n := by
  intro n
  induction n with
  | zero => rfl
  | succ n ih =>
    rw [lb_thread_run_succ, lb_step_flags, ih]
    rfl

theorem lb_run_writes (nt vt : Nat) (count : Int) (segments : Int → Int)
    (num_segments : Int) (range : merge_range_t) (σ0 : Int → Int)
    (t : Nat) : ∀ n : Nat,
    (lb_thread_run nt vt count segments num_segments range σ0 t n).writes =
      (List.range n).filterMap (fun k =>
        if lb_pbit nt vt count segments num_segments range σ0 t k &&
            decide (k < vt) then
          some ((lb_thread_run nt vt count segments num_segments range σ0 t k).cur_item,
            (lb_thread_run nt vt count segments num_segments range σ0 t k).cur_segment)
        else none) := by
  intro n
  induction n with
  | zero => rfl
  | succ n ih =>
    have hpb : decide
        ((lb_thread_run nt vt count segments num_segments range σ0 t n).cur_item <
          lb_sigma1 nt vt count segments num_segments range σ0
            (range.a_count +
              ((lb_thread_run nt vt count segments num_segments range σ0 t n).cur_segment +
                1 - (place_range range count num_segments).b_begin))) =
        lb_pbit nt vt count segments num_segments range σ0 t n := rfl
    rw [lb_thread_run_succ, lb_step_writes, hpb, ih, List.range_succ,
      List.filterMap_append]
    by_cases hc : (lb_pbit nt vt count segments num_segments range σ0 t n &&
        decide (n < vt)) = true
    · rw [if_pos hc]
      rw [Bool.and_eq_true, decide_eq_true_eq] at hc
      simp [List.filterMap_cons, hc]
    · rw [if_neg hc]
      rw [Bool.and_eq_true, decide_eq_true_eq] at hc
      simp [List.filterMap_cons, hc]

theorem lb_run_state (nt vt : Nat) (count : Int) (segments : Int → Int)
    (num_segments : Int) (range : merge_range_t) (σ0 : Int → Int)
    (h : lb_pre nt vt count segments num_segments range) (t : Nat)
    (ht : t < nt) : ∀ i : Nat, i ≤ vt →
    (lb_thread_run nt vt count segments num_segments range σ0 t i).cur_item =
      range.a_begin +
        lb_path nt vt count segments num_segments range
          (vt * t + lb_lpn range + i) ∧
    (lb_thread_run nt vt count segments num_segments range σ0 t i).cur_segment =
      range.b_begin - lb_lp range +
        (((vt * t + lb_lpn range + i : Nat) : Int) -
          lb_path nt vt count segments num_segments range
            (vt * t + lb_lpn range + i)) - 1 := by
  have hcastD : ((vt * t + lb_lpn range : Nat) : Int) = lb_diag vt range t := by
    rw [lb_diag, lb_lp_eq_lpn]
    push_cast
    ring
  have hb1 : (place_range range count num_segments).b_begin =
      range.b_begin - lb_lp range := by rw [place_range_eq]
  intro i
  induction i with
  | zero =>
    intro _
    rw [lb_thread_run_zero]
    have ha : (lb_placement nt vt count segments num_segments range σ0 t).a_index =
        range.a_begin + lb_mp nt vt count segments num_segments range σ0 t := rfl
    have hbx : (lb_placement nt vt count segments num_segments range σ0 t).b_index =
        (place_range range count num_segments).b_begin +
          (lb_diag vt range t -
            lb_mp nt vt count segments num_segments range σ0 t) - 1 := rfl
    constructor
    · show (lb_placement nt vt count segments num_segments range σ0 t).a_index = _
      rw [ha, lb_mp_eq_path nt vt count segments num_segments range σ0 h t,
        Nat.add_zero]
    · show (lb_placement nt vt count segments num_segments range σ0 t).b_index = _
      rw [hbx, hb1, lb_mp_eq_path nt vt count segments num_segments range σ0 h t,
        Nat.add_zero, hcastD]
  | succ i ih =>
    intro hi1
    have hivt : i < vt := by omega
    obtain ⟨hci, hcs⟩ := ih (by omega)
    have hmul : vt * t + i + 1 ≤ nt * vt := by
      calc vt * t + i + 1 ≤ vt * t + vt := by omega
        _ = vt * (t + 1) := by ring
        _ ≤ vt * nt := Nat.mul_le_mul_left vt ht
        _ = nt * vt := Nat.mul_comm vt nt
    have hdle : ((vt * t + lb_lpn range + i : Nat) : Int) ≤
        (nt : Int) * vt + lb_lp range - 1 := by
      have hc2 : ((vt * t + i + 1 : Nat) : Int) ≤ ((nt * vt : Nat) : Int) :=
        Int.ofNat_le.mpr hmul
      rw [lb_lp_eq_lpn]
      push_cast at hc2 ⊢
      omega
    have hy0 : 0 ≤ ((vt * t + lb_lpn range + i : Nat) : Int) -
        lb_path nt vt count segments num_segments range
          (vt * t + lb_lpn range + i) := by
      have := lb_path_le_diag nt vt count segments num_segments range
        (vt * t + lb_lpn range + i)
      omega
    have hyle := lb_path_y_le nt vt count segments num_segments range h
      (vt * t + lb_lpn range + i) (by omega)
    have harg : (lb_thread_run nt vt count segments num_segments range σ0 t i).cur_segment +
        1 - (place_range range count num_segments).b_begin =
        ((vt * t + lb_lpn range + i : Nat) : Int) -
          lb_path nt vt count segments num_segments range
            (vt * t + lb_lpn range + i) := by
      rw [hcs, hb1]
      ring
    have hσ := lb_sigma1_window nt vt count segments num_segments range σ0 h
      (((vt * t + lb_lpn range + i : Nat) : Int) -
        lb_path nt vt count segments num_segments range
          (vt * t + lb_lpn range + i)) hy0 (by omega)
    have hadv_iff := lb_adv_iff_lt nt vt count segments num_segments range h
      (vt * t + lb_lpn range + i) hdle
    have hidx : vt * t + lb_lpn range + (i + 1) =
        vt * t + lb_lpn range + i + 1 := by omega
    by_cases hadv : lb_adv nt vt count segments num_segments range
        (vt * t + lb_lpn range + i)
    · have hcond : (decide
          ((lb_thread_run nt vt count segments num_segments range σ0 t i).cur_item <
            lb_sigma1 nt vt count segments num_segments range σ0
              (range.a_count +
                ((lb_thread_run nt vt count segments num_segments range σ0 t i).cur_segment +
                  1 - (place_range range count num_segments).b_begin))) &&
          decide (i < vt)) = true := by
        rw [Bool.and_eq_true, decide_eq_true_eq, decide_eq_true_eq]
        refine ⟨?_, hivt⟩
        rw [hci, harg, hσ]
        exact hadv_iff.mp hadv
      obtain ⟨hitem, hseg⟩ := lb_step_cur_pos _ _ _ _ _ _ hcond
      constructor
      · rw [lb_thread_run_succ, hitem, hci, hidx,
          lb_path_succ_adv nt vt count segments num_segments range _ hadv]
        ring
      · rw [lb_thread_run_succ, hseg, hcs, hidx,
          lb_path_succ_adv nt vt count segments num_segments range _ hadv]
        push_cast
        ring
    · have hcond : ¬ (decide
          ((lb_thread_run nt vt count segments num_segments range σ0 t i).cur_item <
            lb_sigma1 nt vt count segments num_segments range σ0
              (range.a_count +
                ((lb_thread_run nt vt count segments num_segments range σ0 t i).cur_segment +
                  1 - (place_range range count num_segments).b_begin))) &&
          decide (i < vt)) = true := by
        rw [Bool.and_eq_true, decide_eq_true_eq, decide_eq_true_eq]
        rintro ⟨hp, -⟩
        rw [hci, harg, hσ] at hp
        exact hadv (hadv_iff.mpr hp)
      obtain ⟨hitem, hseg⟩ := lb_step_cur_neg _ _ _ _ _ _ hcond
      constructor
      · rw [lb_thread_run_succ, hitem, hci, hidx,
          lb_path_succ_not_adv nt vt count segments num_segments range _ hadv]
      · rw [lb_thread_run_succ, hseg, hcs, hidx,
          lb_path_succ_not_adv nt vt count segments num_segments range _ hadv]
        push_cast
        ring

theorem lb_pbit_eq_adv (nt vt : Nat) (count : Int) (segments : Int → Int)
    (num_segments : Int) (range : merge_range_t) (σ0 : Int → Int)
    (h : lb_pre nt vt count segments num_segments range) (t : Nat)
    (ht : t < nt) (k : Nat) (hk : k < vt) :
    lb_pbit nt vt count segments num_segments range σ0 t k =
      decide (lb_adv nt vt count segments num_segments range
        (vt * t + lb_lpn range + k)) := by
  have hmul : vt * t + k + 1 ≤ nt * vt := by
    calc vt * t + k + 1 ≤ vt * t + vt := by omega
      _ = vt * (t + 1) := by ring
      _ ≤ vt * nt := Nat.mul_le_mul_left vt ht
      _ = nt * vt := Nat.mul_comm vt nt
  have hdle : ((vt * t + lb_lpn range + k : Nat) : Int) ≤
      (nt : Int) * vt + lb_lp range - 1 := by
    have hc2 : ((vt * t + k + 1 : Nat) : Int) ≤ ((nt * vt : Nat) : Int) :=
      Int.ofNat_le.mpr hmul
    rw [lb_lp_eq_lpn]
    push_cast at hc2 ⊢
    omega
  obtain ⟨hci, hcs⟩ := lb_run_state nt vt count segments num_segments range σ0
    h t ht k (by omega)
  have hb1 : (place_range range count num_segments).b_begin =
      range.b_begin - lb_lp range := by rw [place_range_eq]
  have hy0 : 0 ≤ ((vt * t + lb_lpn range + k : Nat) : Int) -
      lb_path nt vt count segments num_segments range
        (vt * t + lb_lpn range + k) := by
    have := lb_path_le_diag nt vt count segments num_segments range
      (vt * t + lb_lpn range + k)
    omega
  have hyle := lb_path_y_le nt vt count segments num_segments range h
    (vt * t + lb_lpn range + k) (by omega)
  have harg : (lb_thread_run nt vt count segments num_segments range σ0 t k).cur_segment +
      1 - (place_range range count num_segments).b_begin =
      ((vt * t + lb_lpn range + k : Nat) : Int) -
        lb_path nt vt count segments num_segments range
          (vt * t + lb_lpn range + k) := by
    rw [hcs, hb1]
    ring
  have hσ := lb_sigma1_window nt vt count segments num_segments range σ0 h
    (((vt * t + lb_lpn range + k : Nat) : Int) -
      lb_path nt vt count segments num_segments range
        (vt * t + lb_lpn range + k)) hy0 (by omega)
  have hadv_iff := lb_adv_iff_lt nt vt count segments num_segments range h
    (vt * t + lb_lpn range + k) hdle
  rw [lb_pbit, harg, hσ, hci]
  exact decide_eq_decide.mpr hadv_iff.symm

theorem lb_writes_eq_spec (nt vt : Nat) (count : Int) (segments : Int → Int)
    (num_segments : Int) (range : merge_range_t) (σ0 : Int → Int)
    (h : lb_pre nt vt count segments num_segments range) (t : Nat)
    (ht : t < nt) :
    (lb_thread_run nt vt count segments num_segments range σ0 t (vt + 1)).writes =
      lb_writes_spec nt vt count segments num_segments range t := by
  rw [lb_run_writes, lb_writes_spec, List.range_succ, List.filterMap_append]
  have hlast : List.filterMap (fun k =>
      if lb_pbit nt vt count segments num_segments range σ0 t k &&
          decide (k < vt) then
        some ((lb_thread_run nt vt count segments num_segments range σ0 t k).cur_item,
          (lb_thread_run nt vt count segments num_segments range σ0 t k).cur_segment)
      else none) [vt] = [] := by
    simp
  rw [hlast, List.append_nil]
  apply List.filterMap_congr
  intro k hk
  have hkvt : k < vt := List.mem_range.mp hk
  obtain ⟨hci, hcs⟩ := lb_run_state nt vt count segments num_segments range σ0
    h t ht k (by omega)
  rw [lb_pbit_eq_adv nt vt count segments num_segments range σ0 h t ht k hkvt]
  by_cases hadv : lb_adv nt vt count segments num_segments range
      (vt * t + lb_lpn range + k)
  · rw [if_pos (by simp [hadv, hkvt]), if_pos hadv, hci, hcs]
  · rw [if_neg (by simp [hadv]), if_neg hadv]

theorem lb_adv_of_path_succ (nt vt : Nat) (count : Int)
    (segments : Int → Int) (num_segments : Int) (range : merge_range_t)
    (d : Nat)
    (h : lb_path nt vt count segments num_segments range (d + 1) =
      lb_path nt vt count segments num_segments range d + 1) :
    lb_adv nt vt count segments num_segments range d :=
  (mpath_adv_iff _ _ _ _ d).mpr h

theorem lb_adv_path_lt (nt vt : Nat) (count : Int) (segments : Int → Int)
    (num_segments : Int) (range : merge_range_t) {d d' : Nat} (hdd : d < d')
    (hadv : lb_adv nt vt count segments num_segments range d) :
    lb_path nt vt count segments num_segments range d <
      lb_path nt vt count segments num_segments range d' := by
  have h1 := lb_path_succ_adv nt vt count segments num_segments range d hadv
  have h2 := lb_path_mono nt vt count segments num_segments range
    (show d + 1 ≤ d' from hdd)
  omega

theorem lb_path_lpn_zero (nt vt : Nat) (count : Int) (segments : Int → Int)
    (num_segments : Int) (range : merge_range_t)
    (h : lb_pre nt vt count segments num_segments range) :
    lb_path nt vt count segments num_segments range (lb_lpn range) = 0 := by
  rcases lb_lp01 range with hlp | hlp
  · have : lb_lpn range = 0 := by
      have := lb_lp_eq_lpn range
      omega
    rw [this, lb_path_zero]
  · have h1 : lb_lpn range = 1 := by
      have := lb_lp_eq_lpn range
      omega
    rw [h1]
    rw [show (1 : Nat) = 0 + 1 from rfl,
      lb_path_succ_not_adv nt vt count segments num_segments range 0
        (lb_not_adv_zero nt vt count segments num_segments range h (Or.inl hlp)),
      lb_path_zero]

theorem pairwise_filterMap_range {α : Type} (f : Nat → Option α)
    (R : α → α → Prop) : ∀ n : Nat,
    (∀ k k' : Nat, k < k' → k' < n → ∀ a, f k = some a → ∀ a', f k' = some a' →
      R a a') →
    List.Pairwise R ((List.range n).filterMap f) := by
  intro n
  induction n with
  | zero => intro _; simp
  | succ n ih =>
    intro hf
    rw [List.range_succ, List.filterMap_append, List.pairwise_append]
    refine ⟨ih (fun k k' h1 h2 => hf k k' h1 (by omega)), ?_, ?_⟩
    · cases hfn : f n <;> simp [List.filterMap_cons, hfn]
    · intro a ha b hb
      obtain ⟨k, hk, hfk⟩ := List.mem_filterMap.mp ha
      obtain ⟨k', hk', hfk'⟩ := List.mem_filterMap.mp hb
      have hk'n : k' = n := by simpa using hk'
      exact hf k n (List.mem_range.mp hk) (by omega) a hfk b (hk'n ▸ hfk')

theorem apply_writes_append (ab : Int) (l1 l2 : List (Int × Int))
    (σ : Int → Int) :
    apply_writes ab (l1 ++ l2) σ = apply_writes ab l2 (apply_writes ab l1 σ) := by
  rw [apply_writes, apply_writes, apply_writes, List.foldl_append]

theorem foldl_apply_writes (ab : Int) (w : Nat → List (Int × Int)) :
    ∀ (l : List Nat) (σ : Int → Int),
    l.foldl (fun σ t => apply_writes ab (w t) σ) σ =
      apply_writes ab (l.flatMap w) σ := by
  intro l
  induction l with
  | nil => intro σ; rfl
  | cons t rest ih =>
    intro σ
    rw [List.foldl_cons, List.flatMap_cons, ih, apply_writes_append]

theorem flatMap_congr_list {α β : Type} (l : List α) (f g : α → List β)
    (h : ∀ a ∈ l, f a = g a) : l.flatMap f = l.flatMap g := by
  induction l with
  | nil => rfl
  | cons a rest ih =>
    rw [List.flatMap_cons, List.flatMap_cons,
      h a (List.mem_cons_self a rest),
      ih (fun a' ha' => h a' (List.mem_cons_of_mem _ ha'))]

theorem lb_sigma2_eq (nt vt : Nat) (count : Int) (segments : Int → Int)
    (num_segments : Int) (range : merge_range_t) (σ0 : Int → Int)
    (h : lb_pre nt vt count segments num_segments range) :
    lb_sigma2 nt vt count segments num_segments range σ0 =
      apply_writes range.a_begin
        ((List.range nt).flatMap
          (lb_writes_spec nt vt count segments num_segments range))
        (lb_sigma1 nt vt count segments num_segments range σ0) := by
  rw [lb_sigma2, foldl_apply_writes range.a_begin
    (fun t => (lb_thread_run nt vt count segments num_segments range σ0 t (vt + 1)).writes)]
  rw [flatMap_congr_list (List.range nt) _ _
    (fun t htmem => lb_writes_eq_spec nt vt count segments num_segments range σ0
      h t (List.mem_range.mp htmem))]

theorem lb_writes_spec_mem (nt vt : Nat) (count : Int) (segments : Int → Int)
    (num_segments : Int) (range : merge_range_t) {t : Nat} {w : Int × Int} :
    w ∈ lb_writes_spec nt vt count segments num_segments range t ↔
      ∃ k : Nat, k < vt ∧
        lb_adv nt vt count segments num_segments range
          (vt * t + lb_lpn range + k) ∧
        w = (range.a_begin +
            lb_path nt vt count segments num_segments range
              (vt * t + lb_lpn range + k),
          range.b_begin - lb_lp range +
            (((vt * t + lb_lpn range + k : Nat) : Int) -
              lb_path nt vt count segments num_segments range
                (vt * t + lb_lpn range + k)) - 1) := by
  rw [lb_writes_spec, List.mem_filterMap]
  constructor
  · rintro ⟨k, hk, hfk⟩
    by_cases hadv : lb_adv nt vt count segments num_segments range
        (vt * t + lb_lpn range + k)
    · rw [if_pos hadv] at hfk
      exact ⟨k, List.mem_range.mp hk, hadv, (Option.some_inj.mp hfk).symm⟩
    · rw [if_neg hadv] at hfk
      exact absurd hfk (Option.noConfusion)
  · rintro ⟨k, hk, hadv, rfl⟩
    exact ⟨k, List.mem_range.mpr hk, by rw [if_pos hadv]⟩

theorem lb_writes_spec_key_bounds (nt vt : Nat) (count : Int)
    (segments : Int → Int) (num_segments : Int) (range : merge_range_t)
    {t : Nat} {w : Int × Int}
    (hw : w ∈ lb_writes_spec nt vt count segments num_segments range t) :
    range.a_begin ≤ w.1 ∧ w.1 < range.a_begin + range.a_count := by
  obtain ⟨k, hk, hadv, rfl⟩ :=
    (lb_writes_spec_mem nt vt count segments num_segments range).mp hw
  have hx := ((lb_adv_iff nt vt count segments num_segments range _).mp hadv).1
  have h0 := lb_path_nonneg nt vt count segments num_segments range
    (vt * t + lb_lpn range + k)
  constructor
  · dsimp only
    omega
  · dsimp only
    omega

theorem lb_all_writes_pairwise (nt vt : Nat) (count : Int)
    (segments : Int → Int) (num_segments : Int) (range : merge_range_t) :
    ((List.range nt).flatMap
      (lb_writes_spec nt vt count segments num_segments range)).Pairwise
      (fun w w' : Int × Int => w.1 ≠ w'.1) := by
  have hthread : ∀ t : Nat,
      (lb_writes_spec nt vt count segments num_segments range t).Pairwise
        (fun w w' : Int × Int => w.1 ≠ w'.1) := by
    intro t
    rw [lb_writes_spec]
    apply pairwise_filterMap_range
    intro k k' hkk' hk' a hfa a' hfa'
    by_cases hadv : lb_adv nt vt count segments num_segments range
        (vt * t + lb_lpn range + k)
    · by_cases hadv' : lb_adv nt vt count segments num_segments range
          (vt * t + lb_lpn range + k')
      · rw [if_pos hadv] at hfa
        rw [if_pos hadv'] at hfa'
        have hlt := lb_adv_path_lt nt vt count segments num_segments range
          (show vt * t + lb_lpn range + k < vt * t + lb_lpn range + k' by omega)
          hadv
        rw [← Option.some_inj.mp hfa, ← Option.some_inj.mp hfa']
        dsimp only
        omega
      · rw [if_neg hadv'] at hfa'
        exact absurd hfa' Option.noConfusion
    · rw [if_neg hadv] at hfa
      exact absurd hfa Option.noConfusion
  have main : ∀ n : Nat, n ≤ nt →
      ((List.range n).flatMap
        (lb_writes_spec nt vt count segments num_segments range)).Pairwise
        (fun w w' : Int × Int => w.1 ≠ w'.1) := by
    intro n
    induction n with
    | zero => intro _; simp
    | succ n ih =>
      intro hn
      rw [List.range_succ, List.flatMap_append, List.pairwise_append]
      refine ⟨ih (by omega), by simp [hthread n], ?_⟩
      intro a ha b hb
      simp only [List.flatMap_cons, List.flatMap_nil, List.append_nil] at hb
      obtain ⟨t, htmem, hat⟩ := List.mem_flatMap.mp ha
      have htn : t < n := List.mem_range.mp htmem
      obtain ⟨k, hk, hadv, rfl⟩ :=
        (lb_writes_spec_mem nt vt count segments num_segments range).mp hat
      obtain ⟨k', hk', hadv', rfl⟩ :=
        (lb_writes_spec_mem nt vt count segments num_segments range).mp hb
      have hdd : vt * t + lb_lpn range + k < vt * n + lb_lpn range + k' := by
        have : vt * t + vt ≤ vt * n := by
          calc vt * t + vt = vt * (t + 1) := by ring
            _ ≤ vt * n := Nat.mul_le_mul_left vt htn
        omega
      have hlt := lb_adv_path_lt nt vt count segments num_segments range
        hdd hadv
      dsimp only
      omega
  exact main nt (le_refl nt)

theorem lb_sigma2_untouched (nt vt : Nat) (count : Int)
    (segments : Int → Int) (num_segments : Int) (range : merge_range_t)
    (σ0 : Int → Int) (h : lb_pre nt vt count segments num_segments range)
    (j : Int) (hj : j < 0 ∨ range.a_count ≤ j) :
    lb_sigma2 nt vt count segments num_segments range σ0 j =
      lb_sigma1 nt vt count segments num_segments range σ0 j := by
  rw [lb_sigma2_eq nt vt count segments num_segments range σ0 h]
  apply apply_writes_notin
  intro w hw
  obtain ⟨t, -, hwt⟩ := List.mem_flatMap.mp hw
  have := lb_writes_spec_key_bounds nt vt count segments num_segments range hwt
  omega

theorem lb_sigma2_val (nt vt : Nat) (count : Int) (segments : Int → Int)
    (num_segments : Int) (range : merge_range_t) (σ0 : Int → Int)
    (h : lb_pre nt vt count segments num_segments range) (j : Int)
    (hj0 : 0 ≤ j) (hj1 : j < range.a_count) :
    ∃ d : Nat, lb_lpn range ≤ d ∧ d < nt * vt + lb_lpn range ∧
      lb_adv nt vt count segments num_segments range d ∧
      lb_path nt vt count segments num_segments range d = j ∧
      lb_sigma2 nt vt count segments num_segments range σ0 j =
        range.b_begin - lb_lp range + ((d : Int) - j) - 1 := by
  have hvt := h.hvt
  have hnt := h.hnt
  have hP : ∃ m : Nat, j + 1 ≤ lb_path nt vt count segments num_segments range m :=
    ⟨nt * vt + lb_lpn range, by
      rw [lb_path_total nt vt count segments num_segments range h]; omega⟩
  have hspec := Nat.find_spec hP
  have hd0top : Nat.find hP ≤ nt * vt + lb_lpn range :=
    Nat.find_min' hP (by
      rw [lb_path_total nt vt count segments num_segments range h]; omega)
  have hd0gt : lb_lpn range < Nat.find hP := by
    by_contra hle
    push_neg at hle
    have h1 := lb_path_mono nt vt count segments num_segments range hle
    rw [lb_path_lpn_zero nt vt count segments num_segments range h] at h1
    omega
  obtain ⟨d, hd⟩ : ∃ d, Nat.find hP = d + 1 := ⟨Nat.find hP - 1, by omega⟩
  have hdlt : d < Nat.find hP := by omega
  have hnP := Nat.find_min hP hdlt
  push_neg at hnP
  rw [hd] at hspec
  have hcases := mpath_succ_cases (fun x => range.a_begin + x)
    (lb_window count segments num_segments range) range.a_count
    (lb_load_count range count num_segments +
      lb_fill_count nt vt range count num_segments) d
  have hpathj : lb_path nt vt count segments num_segments range d = j := by
    rcases hcases with hc | hc
    · rw [show lb_path nt vt count segments num_segments range (d + 1) =
        mpath_go (fun x => range.a_begin + x)
          (lb_window count segments num_segments range) range.a_count
          (lb_load_count range count num_segments +
            lb_fill_count nt vt range count num_segments) (d + 1) from rfl,
        hc] at hspec
      have : lb_path nt vt count segments num_segments range d =
          mpath_go (fun x => range.a_begin + x)
            (lb_window count segments num_segments range) range.a_count
            (lb_load_count range count num_segments +
              lb_fill_count nt vt range count num_segments) d := rfl
      omega
    · have hc' : lb_path nt vt count segments num_segments range (d + 1) =
          lb_path nt vt count segments num_segments range d + 1 := hc
      omega
  have hadv : lb_adv nt vt count segments num_segments range d := by
    apply lb_adv_of_path_succ
    have hc' : lb_path nt vt count segments num_segments range (d + 1) =
        lb_path nt vt count segments num_segments range d ∨
        lb_path nt vt count segments num_segments range (d + 1) =
          lb_path nt vt count segments num_segments range d + 1 := hcases
    rcases hc' with hc | hc
    · omega
    · exact hc
  have hdlpn : lb_lpn range ≤ d := by omega
  have hdtop : d < nt * vt + lb_lpn range := by
    have hnv : 1 ≤ nt * vt := Nat.one_le_iff_ne_zero.mpr (by positivity)
    omega
  -- decompose the diagonal into its owning thread and step
  obtain ⟨t, k, hkvt, hdk⟩ : ∃ t k : Nat, k < vt ∧
      d = vt * t + lb_lpn range + k := by
    refine ⟨(d - lb_lpn range) / vt, (d - lb_lpn range) % vt,
      Nat.mod_lt _ (by omega), ?_⟩
    have := Nat.div_add_mod (d - lb_lpn range) vt
    omega
  have htn : t < nt := by
    have hlt : d - lb_lpn range < nt * vt := by omega
    have h2 : vt * t ≤ d - lb_lpn range := by omega
    by_contra hge
    push_neg at hge
    have : vt * nt ≤ vt * t := Nat.mul_le_mul_left vt hge
    have : nt * vt = vt * nt := Nat.mul_comm nt vt
    omega
  refine ⟨d, hdlpn, hdtop, hadv, hpathj, ?_⟩
  rw [lb_sigma2_eq nt vt count segments num_segments range σ0 h]
  have hmem : ((range.a_begin + j,
      range.b_begin - lb_lp range + ((d : Int) - j) - 1) : Int × Int) ∈
      (List.range nt).flatMap
        (lb_writes_spec nt vt count segments num_segments range) := by
    rw [List.mem_flatMap]
    refine ⟨t, List.mem_range.mpr htn, ?_⟩
    rw [lb_writes_spec_mem]
    refine ⟨k, hkvt, ?_, ?_⟩
    · rw [← hdk]
      exact hadv
    · rw [← hdk, hpathj]
  have happ := apply_writes_mem range.a_begin _
    (lb_sigma1 nt vt count segments num_segments range σ0)
    (range.a_begin + j)
    (range.b_begin - lb_lp range + ((d : Int) - j) - 1)
    (lb_all_writes_pairwise nt vt count segments num_segments range) hmem
  rw [show range.a_begin + j - range.a_begin = j by ring] at happ
  exact happ

theorem lb_path_lt_self (nt vt : Nat) (count : Int) (segments : Int → Int)
    (num_segments : Int) (range : merge_range_t)
    (h : lb_pre nt vt count segments num_segments range)
    (hstart : lb_lp range = 1 ∨ (1 ≤ num_segments ∧ segments 0 = 0)) :
    ∀ m : Nat, 1 ≤ m →
      lb_path nt vt count segments num_segments range m ≤ (m : Int) - 1 := by
  intro m
  induction m with
  | zero => omega
  | succ m ih =>
    intro _
    rcases Nat.eq_zero_or_pos m with rfl | hm
    · rw [show (0 : Nat) + 1 = 0 + 1 from rfl,
        lb_path_succ_not_adv nt vt count segments num_segments range 0
          (lb_not_adv_zero nt vt count segments num_segments range h hstart),
        lb_path_zero]
      norm_num
    · have h1 := ih hm
      rcases mpath_succ_cases (fun x => range.a_begin + x)
          (lb_window count segments num_segments range) range.a_count
          (lb_load_count range count num_segments +
            lb_fill_count nt vt range count num_segments) m with hc | hc
      · have hc' : lb_path nt vt count segments num_segments range (m + 1) =
            lb_path nt vt count segments num_segments range m := hc
        push_cast
        omega
      · have hc' : lb_path nt vt count segments num_segments range (m + 1) =
            lb_path nt vt count segments num_segments range m + 1 := hc
        push_cast
        omega

theorem lb_adv_int_le (nt vt : Nat) (range : merge_range_t) {d : Nat}
    (hd2 : d < nt * vt + lb_lpn range) :
    (d : Int) ≤ (nt : Int) * vt + lb_lp range - 1 := by
  have := Int.ofNat_le.mpr (Nat.succ_le_of_lt hd2)
  rw [lb_lp_eq_lpn]
  push_cast at this ⊢
  omega

theorem lb_write_y_le_L (nt vt : Nat) (count : Int) (segments : Int → Int)
    (num_segments : Int) (range : merge_range_t)
    (h : lb_pre nt vt count segments num_segments range) {d : Nat}
    (hadv : lb_adv nt vt count segments num_segments range d) :
    (d : Int) - lb_path nt vt count segments num_segments range d ≤
      lb_load_count range count num_segments :=
  lb_path_y_le_L nt vt count segments num_segments range h d
    ((lb_adv_iff nt vt count segments num_segments range d).mp hadv).1

theorem lb_write_upper (nt vt : Nat) (count : Int) (segments : Int → Int)
    (num_segments : Int) (range : merge_range_t)
    (h : lb_pre nt vt count segments num_segments range) {d : Nat}
    (hd2 : d < nt * vt + lb_lpn range)
    (hadv : lb_adv nt vt count segments num_segments range d) :
    range.a_begin + lb_path nt vt count segments num_segments range d <
      seg_ext count segments num_segments
        (range.b_begin - lb_lp range +
          ((d : Int) - lb_path nt vt count segments num_segments range d)) := by
  have hx := ((lb_adv_iff nt vt count segments num_segments range d).mp hadv).1
  have hyL := lb_write_y_le_L nt vt count segments num_segments range h hadv
  have hy0 : 0 ≤ (d : Int) - lb_path nt vt count segments num_segments range d := by
    have := lb_path_le_diag nt vt count segments num_segments range d
    omega
  have hAW := (lb_adv_iff_lt nt vt count segments num_segments range h d
    (lb_adv_int_le nt vt range hd2)).mp hadv
  have htop := lb_window_top nt vt count segments num_segments range h
  have hLeq := lb_load_count_eq range count num_segments
  have hF := lb_fill_count_eq nt vt count segments num_segments range h
  have heps01 := lb_eps01 range count num_segments
  have haceq : range.a_count = range.a_end - range.a_begin := rfl
  have hbceq : range.b_count = range.b_end - range.b_begin := rfl
  have hxnn := lb_path_nonneg nt vt count segments num_segments range d
  by_cases hyL2 : (d : Int) - lb_path nt vt count segments num_segments range d <
      lb_load_count range count num_segments
  · -- cursor inside the loaded prefix: the next entry is a real segment start
    rw [lb_window, place_range_eq, if_pos hyL2] at hAW
    dsimp only at hAW
    rw [seg_ext, if_pos (by omega)]
    exact hAW
  · -- cursor on the first sentinel: only reachable with fill_count = 1
    have hyeq : (d : Int) - lb_path nt vt count segments num_segments range d =
        lb_load_count range count num_segments := by omega
    rw [seg_ext]
    by_cases hnum : range.b_begin - lb_lp range +
        ((d : Int) - lb_path nt vt count segments num_segments range d) <
        num_segments
    · rw [if_pos hnum]
      -- fill_count ≥ 1, hence no trailing extension, hence a_end = count
      have hFpos : 1 ≤ lb_fill_count nt vt range count num_segments := by
        have hy := lb_path_y_le nt vt count segments num_segments range h d
          (by have := lb_adv_int_le nt vt range hd2; omega)
        omega
      have heps : lb_eps range count num_segments = 0 := by omega
      have hbe : range.b_begin - lb_lp range +
          ((d : Int) - lb_path nt vt count segments num_segments range d) =
          range.b_end := by
        rw [hbceq] at hLeq
        omega
      have haec : range.a_end = count := by
        by_contra hne
        rw [lb_eps, if_pos ⟨by omega, lt_of_le_of_ne h.ha2 hne⟩] at heps
        omega
      rcases h.hv1.1 with hae0 | hben | hlt
      · have := h.ha0
        omega
      · omega
      · rw [hbe]
        omega
    · rw [if_neg hnum]
      have := h.ha2
      omega

theorem lb_write_lower (nt vt : Nat) (count : Int) (segments : Int → Int)
    (num_segments : Int) (range : merge_range_t)
    (h : lb_pre nt vt count segments num_segments range) {d : Nat}
    (hadv : lb_adv nt vt count segments num_segments range d)
    (hy1 : 1 ≤ (d : Int) - lb_path nt vt count segments num_segments range d) :
    segments (range.b_begin - lb_lp range +
        ((d : Int) - lb_path nt vt count segments num_segments range d) - 1) ≤
      range.a_begin + lb_path nt vt count segments num_segments range d := by
  have hx := ((lb_adv_iff nt vt count segments num_segments range d).mp hadv).1
  have hyL := lb_write_y_le_L nt vt count segments num_segments range h hadv
  have hlow := lb_path_low_bound nt vt count segments num_segments range h d
    hx hy1
  rw [lb_window, place_range_eq, if_pos (by omega)] at hlow
  dsimp only at hlow
  calc segments (range.b_begin - lb_lp range +
        ((d : Int) - lb_path nt vt count segments num_segments range d) - 1)
      = segments (range.b_begin - lb_lp range +
        ((d : Int) - lb_path nt vt count segments num_segments range d - 1)) := by
        congr 1
        ring
    _ ≤ range.a_begin + lb_path nt vt count segments num_segments range d :=
        hlow

theorem lb_write_y_pos (nt vt : Nat) (count : Int) (segments : Int → Int)
    (num_segments : Int) (range : merge_range_t)
    (h : lb_pre nt vt count segments num_segments range)
    (hstart : lb_lp range = 1 ∨ (1 ≤ num_segments ∧ segments 0 = 0))
    {d : Nat} (hadv : lb_adv nt vt count segments num_segments range d) :
    1 ≤ (d : Int) - lb_path nt vt count segments num_segments range d := by
  rcases Nat.eq_zero_or_pos d with rfl | hd
  · exact absurd hadv
      (lb_not_adv_zero nt vt count segments num_segments range h hstart)
  · have := lb_path_lt_self nt vt count segments num_segments range h hstart d hd
    omega

theorem lb_body_segments (nt vt : Nat) (count : Int) (segments : Int → Int)
    (num_segments : Int) (tid : Nat) (range : merge_range_t)
    (σ0 : Int → Int) (i : Nat) :
    (lb_body nt vt count segments num_segments tid range σ0).segments i =
      if (nt : Int) * i + tid < range.a_count then
        lb_sigma2 nt vt count segments num_segments range σ0
          ((nt : Int) * i + tid)
      else range.b_begin := rfl

theorem lb_body_ranks (nt vt : Nat) (count : Int) (segments : Int → Int)
    (num_segments : Int) (tid : Nat) (range : merge_range_t)
    (σ0 : Int → Int) (i : Nat) :
    (lb_body nt vt count segments num_segments tid range σ0).ranks i =
      if (nt : Int) * i + tid < range.a_count then
        (range.a_begin + ((nt : Int) * i + tid)) -
          lb_sigma2 nt vt count segments num_segments range σ0
            (range.a_count +
              (lb_sigma2 nt vt count segments num_segments range σ0
                  ((nt : Int) * i + tid) -
                (place_range range count num_segments).b_begin))
      else -1 := rfl

theorem lb_body_indices (nt vt : Nat) (count : Int) (segments : Int → Int)
    (num_segments : Int) (tid : Nat) (range : merge_range_t)
    (σ0 : Int → Int) (i : Nat) :
    (lb_body nt vt count segments num_segments tid range σ0).indices i =
      range.a_begin + ((nt : Int) * i + tid) := rfl

theorem lb_body_flags (nt vt : Nat) (count : Int) (segments : Int → Int)
    (num_segments : Int) (tid : Nat) (range : merge_range_t)
    (σ0 : Int → Int) :
    (lb_body nt vt count segments num_segments tid range σ0).merge_flags =
      (lb_thread_run nt vt count segments num_segments range σ0 tid
        (vt + 1)).merge_flags := rfl

theorem flagsOf_congr (q q' : Nat → Bool) :
    ∀ n : Nat, (∀ k, k < n → q k = q' k) → flagsOf q n = flagsOf q' n := by
  intro n
  induction n with
  | zero => intro _; rfl
  | succ n ih =>
    intro hq
    show flagsOf q n ||| ((if q n then 1 else 0) <<< n) = _
    rw [ih (fun k hk => hq k (by omega)), hq n (by omega)]
    rfl

theorem lb_pbit_last (nt vt : Nat) (count : Int) (segments : Int → Int)
    (num_segments : Int) (range : merge_range_t) (σ0 : Int → Int)
    (h : lb_pre nt vt count segments num_segments range) (t : Nat)
    (ht : t < nt) :
    lb_pbit nt vt count segments num_segments range σ0 t vt =
      decide (range.a_begin +
          lb_path nt vt count segments num_segments range
            (vt * t + lb_lpn range + vt) <
        lb_window count segments num_segments range
          (((vt * t + lb_lpn range + vt : Nat) : Int) -
            lb_path nt vt count segments num_segments range
              (vt * t + lb_lpn range + vt))) := by
  have hmul : vt * t + vt ≤ nt * vt := by
    calc vt * t + vt = vt * (t + 1) := by ring
      _ ≤ vt * nt := Nat.mul_le_mul_left vt ht
      _ = nt * vt := Nat.mul_comm vt nt
  have hdle : ((vt * t + lb_lpn range + vt : Nat) : Int) ≤
      (nt : Int) * vt + lb_lp range := by
    have hc2 : ((vt * t + vt : Nat) : Int) ≤ ((nt * vt : Nat) : Int) :=
      Int.ofNat_le.mpr hmul
    rw [lb_lp_eq_lpn]
    push_cast at hc2 ⊢
    omega
  obtain ⟨hci, hcs⟩ := lb_run_state nt vt count segments num_segments range σ0
    h t ht vt (le_refl vt)
  have hb1 : (place_range range count num_segments).b_begin =
      range.b_begin - lb_lp range := by rw [place_range_eq]
  have hy0 : 0 ≤ ((vt * t + lb_lpn range + vt : Nat) : Int) -
      lb_path nt vt count segments num_segments range
        (vt * t + lb_lpn range + vt) := by
    have := lb_path_le_diag nt vt count segments num_segments range
      (vt * t + lb_lpn range + vt)
    omega
  have hyle := lb_path_y_le nt vt count segments num_segments range h
    (vt * t + lb_lpn range + vt) hdle
  have harg : (lb_thread_run nt vt count segments num_segments range σ0 t vt).cur_segment +
      1 - (place_range range count num_segments).b_begin =
      ((vt * t + lb_lpn range + vt : Nat) : Int) -
        lb_path nt vt count segments num_segments range
          (vt * t + lb_lpn range + vt) := by
    rw [hcs, hb1]
    ring
  have hσ := lb_sigma1_window nt vt count segments num_segments range σ0 h
    (((vt * t + lb_lpn range + vt : Nat) : Int) -
      lb_path nt vt count segments num_segments range
        (vt * t + lb_lpn range + vt)) hy0 (by omega)
  rw [lb_pbit, harg, hσ, hci]

theorem demo_pre : lb_pre 2 2 3 (fun _ => 0) 1 ⟨0, 3, 0, 1⟩ := by
  refine ⟨by norm_num, by norm_num, by decide, by decide, by decide, by decide,
    by decide, by decide, by decide, ?_, ?_, ?_, ?_⟩
  · intro s s' _ _ _
    exact le_refl 0
  · intro s _ _
    exact ⟨le_refl 0, by norm_num⟩
  · exact ⟨Or.inl rfl, Or.inl rfl⟩
  · exact ⟨Or.inr (Or.inl rfl), Or.inr (Or.inl rfl)⟩

theorem demo_pre_bad :
    lb_pre 1 1 1 (fun s => if s = 0 then 1 else 5) 1 ⟨0, 1, 0, 0⟩ := by
  refine ⟨by norm_num, by norm_num, by decide, by decide, by decide, by decide,
    by decide, by decide, by decide, ?_, ?_, ?_, ?_⟩
  · intro s s' hs hss' hlt
    have h1 : s = 0 := by omega
    have h2 : s' = 0 := by omega
    rw [h1, h2]
  · intro s h0 h1
    have h2 : s = 0 := by omega
    rw [h2]
    norm_num
  · exact ⟨Or.inl rfl, Or.inl rfl⟩
  · exact ⟨Or.inr (Or.inr (by norm_num)), Or.inl rfl⟩

/-- C1 (amended): under the documented preconditions together with the CSR
convention that the descriptor is non-empty and starts at zero
(`1 ≤ num_segments` and `segments 0 = 0`), for every output index
`i ∈ [range.a_begin, range.a_end)` the serial-merge phase of `load_balance`
writes into `a_shared[i]` (storage slot `i - range.a_begin`, i.e.
`lb_sigma2` at that slot) a segment id `s` with `0 ≤ s < num_segments` and
`segments[s] ≤ i < segments[s+1]`, taking `segments[num_segments] = count`.
Without the CSR convention the claim is false (see the counterexample). -/
theorem load_balance_output_segment (nt vt : Nat) (count : Int)
    (segments : Int → Int) (num_segments : Int) (range : merge_range_t)
    (σ0 : Int → Int) (h : lb_pre nt vt count segments num_segments range)
    (hnum : 1 ≤ num_segments) (hcsr : segments 0 = 0) (i : Int)
    (hi0 : range.a_begin ≤ i) (hi1 : i < range.a_end) :
    0 ≤ lb_sigma2 nt vt count segments num_segments range σ0
        (i - range.a_begin) ∧
    lb_sigma2 nt vt count segments num_segments range σ0 (i - range.a_begin) <
      num_segments ∧
    segments (lb_sigma2 nt vt count segments num_segments range σ0
        (i - range.a_begin)) ≤ i ∧
    i < seg_ext count segments num_segments
      (lb_sigma2 nt vt count segments num_segments range σ0
          (i - range.a_begin) + 1) := by
  have haceq : range.a_count = range.a_end - range.a_begin := rfl
  have hj0 : 0 ≤ i - range.a_begin := by omega
  have hj1 : i - range.a_begin < range.a_count := by omega
  obtain ⟨d, hd1, hd2, hadv, hpath, hval⟩ :=
    lb_sigma2_val nt vt count segments num_segments range σ0 h
      (i - range.a_begin) hj0 hj1
  rw [hval]
  have hy1 := lb_write_y_pos nt vt count segments num_segments range h
    (Or.inr ⟨hnum, hcsr⟩) hadv
  rw [hpath] at hy1
  have hyL := lb_write_y_le_L nt vt count segments num_segments range h hadv
  rw [hpath] at hyL
  have hb1n := lb_b1_nonneg nt vt count segments num_segments range h
  have htop := lb_window_top nt vt count segments num_segments range h
  refine ⟨by omega, by omega, ?_, ?_⟩
  · have hlow := lb_write_lower nt vt count segments num_segments range h
      hadv (by rw [hpath]; omega)
    rw [hpath, show range.a_begin + (i - range.a_begin) = i by ring] at hlow
    exact hlow
  · have hupper := lb_write_upper nt vt count segments num_segments range h
      hd2 hadv
    rw [hpath, show range.a_begin + (i - range.a_begin) = i by ring] at hupper
    rw [show range.b_begin - lb_lp range + ((d : Int) - (i - range.a_begin)) -
        1 + 1 =
        range.b_begin - lb_lp range + ((d : Int) - (i - range.a_begin)) by
      ring]
    exact hupper

/-- C1 counterexample: with `segments = [1]` (a descriptor whose first entry
is not zero), `count = 1`, `nt = vt = 1` and the valid tile
`(0,1) × (0,0)`, all documented preconditions hold, yet the serial merge
writes the id `-1` into `a_shared[0]`, and `segments[-1] = 5 ≤ 0` fails, so
the claim as stated is false. -/
theorem load_balance_output_segment_counterexample :
    lb_pre 1 1 1 (fun s => if s = 0 then 1 else 5) 1 ⟨0, 1, 0, 0⟩ ∧
    lb_sigma2 1 1 1 (fun s => if s = 0 then 1 else 5) 1 ⟨0, 1, 0, 0⟩
      (fun _ => 37) 0 = -1 ∧
    ¬ ((fun s : Int => if s = 0 then 1 else 5)
        (lb_sigma2 1 1 1 (fun s => if s = 0 then 1 else 5) 1 ⟨0, 1, 0, 0⟩
          (fun _ => 37) 0) ≤ 0 ∧
      0 < seg_ext 1 (fun s => if s = 0 then 1 else 5) 1
        (lb_sigma2 1 1 1 (fun s => if s = 0 then 1 else 5) 1 ⟨0, 1, 0, 0⟩
          (fun _ => 37) 0 + 1)) :=
  ⟨demo_pre_bad, by decide, by decide⟩

/-- C1 witness: the amended theorem evaluated on a concrete tile
(`count = 3`, one segment starting at 0, `nt = vt = 2`). -/
theorem load_balance_output_segment_witness :
    lb_pre 2 2 3 (fun _ => 0) 1 ⟨0, 3, 0, 1⟩ ∧
    (1 : Int) ≤ 1 ∧ (fun _ : Int => (0 : Int)) 0 = 0 ∧
    (0 ≤ lb_sigma2 2 2 3 (fun _ => 0) 1 ⟨0, 3, 0, 1⟩ (fun _ => 37) (1 - 0) ∧
      lb_sigma2 2 2 3 (fun _ => 0) 1 ⟨0, 3, 0, 1⟩ (fun _ => 37) (1 - 0) < 1 ∧
      (fun _ : Int => (0 : Int))
        (lb_sigma2 2 2 3 (fun _ => 0) 1 ⟨0, 3, 0, 1⟩ (fun _ => 37) (1 - 0)) ≤ 1 ∧
      (1 : Int) < seg_ext 3 (fun _ => 0) 1
        (lb_sigma2 2 2 3 (fun _ => 0) 1 ⟨0, 3, 0, 1⟩ (fun _ => 37) (1 - 0) + 1)) := by
  refine ⟨demo_pre, by norm_num, rfl, ?_⟩
  have := load_balance_output_segment 2 2 3 (fun _ => 0) 1 ⟨0, 3, 0, 1⟩
    (fun _ => 37) demo_pre (by norm_num) rfl 1 (by decide) (by decide)
  exact this

/-- C2 (amended): under the documented preconditions together with the CSR
convention (`1 ≤ num_segments`, `segments 0 = 0`), every active lane
(`nt*i + tid < range.a_count`) receives
`ranks[i] = indices[i] - segments[seg[i]]`, and this rank lies in
`[0, segments[seg[i]+1] - segments[seg[i]])` with
`segments[num_segments] = count`.  Without the CSR convention the rank is
computed from a stale shared-memory slot and the claim fails (see the
counterexample). -/
theorem load_balance_rank (nt vt : Nat) (count : Int)
    (segments : Int → Int) (num_segments : Int) (tid : Nat)
    (range : merge_range_t) (σ0 : Int → Int)
    (h : lb_pre nt vt count segments num_segments range)
    (hnum : 1 ≤ num_segments) (hcsr : segments 0 = 0) (i : Nat)
    (hact : (nt : Int) * i + tid < range.a_count) :
    (lb_body nt vt count segments num_segments tid range σ0).ranks i =
      (lb_body nt vt count segments num_segments tid range σ0).indices i -
        segments
          ((lb_body nt vt count segments num_segments tid range σ0).segments i) ∧
    0 ≤ (lb_body nt vt count segments num_segments tid range σ0).ranks i ∧
    (lb_body nt vt count segments num_segments tid range σ0).ranks i <
      seg_ext count segments num_segments
        ((lb_body nt vt count segments num_segments tid range σ0).segments i + 1) -
      segments
        ((lb_body nt vt count segments num_segments tid range σ0).segments i) := by
  have hb1 : (place_range range count num_segments).b_begin =
      range.b_begin - lb_lp range := by rw [place_range_eq]
  have hj0 : (0 : Int) ≤ (nt : Int) * i + tid := by positivity
  obtain ⟨d, hd1, hd2, hadv, hpath, hval⟩ :=
    lb_sigma2_val nt vt count segments num_segments range σ0 h
      ((nt : Int) * i + tid) hj0 hact
  have hy1 := lb_write_y_pos nt vt count segments num_segments range h
    (Or.inr ⟨hnum, hcsr⟩) hadv
  rw [hpath] at hy1
  have hyL := lb_write_y_le_L nt vt count segments num_segments range h hadv
  rw [hpath] at hyL
  have hF := lb_fill_count_eq nt vt count segments num_segments range h
  have heps01 := lb_eps01 range count num_segments
  have hlow := lb_write_lower nt vt count segments num_segments range h
    hadv (by rw [hpath]; omega)
  rw [hpath] at hlow
  have hupper := lb_write_upper nt vt count segments num_segments range h
    hd2 hadv
  rw [hpath] at hupper
  have hrank : (lb_body nt vt count segments num_segments tid range σ0).ranks i =
      (range.a_begin + ((nt : Int) * i + tid)) -
        segments (range.b_begin - lb_lp range +
          ((d : Int) - ((nt : Int) * i + tid)) - 1) := by
    rw [lb_body_ranks, if_pos hact, hval, hb1,
      show range.a_count + (range.b_begin - lb_lp range +
          ((d : Int) - ((nt : Int) * i + tid)) - 1 -
          (range.b_begin - lb_lp range)) =
        range.a_count + ((d : Int) - ((nt : Int) * i + tid) - 1) by ring,
      lb_sigma2_untouched nt vt count segments num_segments range σ0 h _
        (Or.inr (by omega)),
      lb_sigma1_window nt vt count segments num_segments range σ0 h
        ((d : Int) - ((nt : Int) * i + tid) - 1) (by omega) (by omega),
      lb_window, if_pos (by omega), hb1,
      show range.b_begin - lb_lp range +
          ((d : Int) - ((nt : Int) * i + tid) - 1) =
        range.b_begin - lb_lp range +
          ((d : Int) - ((nt : Int) * i + tid)) - 1 by ring]
  have hseg : (lb_body nt vt count segments num_segments tid range σ0).segments i =
      range.b_begin - lb_lp range +
        ((d : Int) - ((nt : Int) * i + tid)) - 1 := by
    rw [lb_body_segments, if_pos hact, hval]
  refine ⟨?_, ?_, ?_⟩
  · rw [hrank, hseg, lb_body_indices]
  · rw [hrank]
    omega
  · rw [hrank, hseg,
      show range.b_begin - lb_lp range +
          ((d : Int) - ((nt : Int) * i + tid)) - 1 + 1 =
        range.b_begin - lb_lp range +
          ((d : Int) - ((nt : Int) * i + tid)) by ring]
    omega

/-- C2 counterexample: in the `segments = [1]` scenario of the C1
counterexample the single active lane has `ranks[0] = 1` (computed from a
shared slot holding the just-written id `-1`), which differs from
`indices[0] - segments[seg[0]] = 0 - segments[-1] = -5`, and also fails the
claimed range bound. -/
theorem load_balance_rank_counterexample :
    lb_pre 1 1 1 (fun s => if s = 0 then 1 else 5) 1 ⟨0, 1, 0, 0⟩ ∧
    (0 : Int) ≤
      (lb_body 1 1 1 (fun s => if s = 0 then 1 else 5) 1 0 ⟨0, 1, 0, 0⟩
        (fun _ => 37)).ranks 0 ∧
    ¬ ((lb_body 1 1 1 (fun s => if s = 0 then 1 else 5) 1 0 ⟨0, 1, 0, 0⟩
          (fun _ => 37)).ranks 0 =
        (lb_body 1 1 1 (fun s => if s = 0 then 1 else 5) 1 0 ⟨0, 1, 0, 0⟩
          (fun _ => 37)).indices 0 -
        (fun s : Int => if s = 0 then 1 else 5)
          ((lb_body 1 1 1 (fun s => if s = 0 then 1 else 5) 1 0 ⟨0, 1, 0, 0⟩
            (fun _ => 37)).segments 0)) :=
  ⟨demo_pre_bad, by decide, by decide⟩

/-- C2 witness: the amended theorem evaluated on lane 1 of thread 0 of the
concrete tile of the C1 witness. -/
theorem load_balance_rank_witness :
    lb_pre 2 2 3 (fun _ => 0) 1 ⟨0, 3, 0, 1⟩ ∧
    ((2 : Int) * 1 + 0 < (⟨0, 3, 0, 1⟩ : merge_range_t).a_count) ∧
    ((lb_body 2 2 3 (fun _ => 0) 1 0 ⟨0, 3, 0, 1⟩ (fun _ => 37)).ranks 1 =
      (lb_body 2 2 3 (fun _ => 0) 1 0 ⟨0, 3, 0, 1⟩ (fun _ => 37)).indices 1 -
        (fun _ : Int => (0 : Int))
          ((lb_body 2 2 3 (fun _ => 0) 1 0 ⟨0, 3, 0, 1⟩ (fun _ => 37)).segments 1) ∧
      0 ≤ (lb_body 2 2 3 (fun _ => 0) 1 0 ⟨0, 3, 0, 1⟩ (fun _ => 37)).ranks 1 ∧
      (lb_body 2 2 3 (fun _ => 0) 1 0 ⟨0, 3, 0, 1⟩ (fun _ => 37)).ranks 1 <
        seg_ext 3 (fun _ => 0) 1
          ((lb_body 2 2 3 (fun _ => 0) 1 0 ⟨0, 3, 0, 1⟩ (fun _ => 37)).segments 1 + 1) -
        (fun _ : Int => (0 : Int))
          ((lb_body 2 2 3 (fun _ => 0) 1 0 ⟨0, 3, 0, 1⟩ (fun _ => 37)).segments 1)) := by
  refine ⟨demo_pre, by decide, ?_⟩
  exact load_balance_rank 2 2 3 (fun _ => 0) 1 0 ⟨0, 3, 0, 1⟩ (fun _ => 37)
    demo_pre (by norm_num) rfl 1 (by decide)

theorem lb_adv_count (nt vt : Nat) (count : Int) (segments : Int → Int)
    (num_segments : Int) (range : merge_range_t) (d0 : Nat) :
    ∀ m : Nat,
    ((((List.range m).filter (fun k =>
        decide (lb_adv nt vt count segments num_segments range
          (d0 + k)))).length : Int)) =
      lb_path nt vt count segments num_segments range (d0 + m) -
        lb_path nt vt count segments num_segments range d0 := by
  intro m
  induction m with
  | zero => simp
  | succ m ih =>
    rw [List.range_succ, List.filter_append, List.length_append,
      show d0 + (m + 1) = d0 + m + 1 from rfl]
    push_cast
    rw [ih]
    by_cases hadv : lb_adv nt vt count segments num_segments range (d0 + m)
    · rw [lb_path_succ_adv nt vt count segments num_segments range _ hadv]
      have hone : (((List.filter (fun k =>
          decide (lb_adv nt vt count segments num_segments range (d0 + k)))
          [m]).length : Nat) : Int) = 1 := by simp [hadv]
      rw [hone]
      ring
    · rw [lb_path_succ_not_adv nt vt count segments num_segments range _ hadv]
      have hzero : (((List.filter (fun k =>
          decide (lb_adv nt vt count segments num_segments range (d0 + k)))
          [m]).length : Nat) : Int) = 0 := by simp [hadv]
      rw [hzero]
      ring

theorem lb_flags_popcount (nt vt : Nat) (count : Int) (segments : Int → Int)
    (num_segments : Int) (range : merge_range_t) (σ0 : Int → Int)
    (h : lb_pre nt vt count segments num_segments range) (t : Nat)
    (ht : t < nt) :
    ((popcount
        ((lb_thread_run nt vt count segments num_segments range σ0 t
          (vt + 1)).merge_flags &&& ((1 <<< vt) - 1)) : Nat) : Int) =
      lb_path nt vt count segments num_segments range
          (vt * t + lb_lpn range + vt) -
        lb_path nt vt count segments num_segments range
          (vt * t + lb_lpn range) := by
  rw [lb_run_flags]
  rw [show (1 <<< vt) - 1 = 2 ^ vt - 1 by rw [Nat.shiftLeft_eq, one_mul]]
  rw [flagsOf_land_two_pow_sub_one]
  rw [show min (vt + 1) vt = vt by omega]
  rw [flagsOf_congr _ (fun k =>
      decide (lb_adv nt vt count segments num_segments range
        (vt * t + lb_lpn range + k))) vt
    (fun k hk =>
      lb_pbit_eq_adv nt vt count segments num_segments range σ0 h t ht k hk)]
  rw [popcount_flagsOf]
  exact lb_adv_count nt vt count segments num_segments range
    (vt * t + lb_lpn range) vt

/-- C3 (confirmed): under the documented preconditions, the per-thread
`popcount(merge_flags & ((1 << vt) - 1))` summed over the `nt` threads of a
CTA equals the tile's `a_count = range.a_end - range.a_begin`. -/
theorem load_balance_popcount_sum (nt vt : Nat) (count : Int)
    (segments : Int → Int) (num_segments : Int) (range : merge_range_t)
    (σ0 : Int → Int)
    (h : lb_pre nt vt count segments num_segments range) :
    ∑ t ∈ Finset.range nt,
      ((popcount
        ((lb_body nt vt count segments num_segments t range σ0).merge_flags &&&
          ((1 <<< vt) - 1)) : Nat) : Int) = range.a_count := by
  have hterm : ∀ t ∈ Finset.range nt,
      ((popcount
        ((lb_body nt vt count segments num_segments t range σ0).merge_flags &&&
          ((1 <<< vt) - 1)) : Nat) : Int) =
      lb_path nt vt count segments num_segments range (vt * (t + 1) + lb_lpn range) -
        lb_path nt vt count segments num_segments range (vt * t + lb_lpn range) := by
    intro t htmem
    rw [lb_body_flags,
      lb_flags_popcount nt vt count segments num_segments range σ0 h t
        (Finset.mem_range.mp htmem),
      show vt * t + lb_lpn range + vt = vt * (t + 1) + lb_lpn range by ring]
  rw [Finset.sum_congr rfl hterm,
    Finset.sum_range_sub (fun t =>
      lb_path nt vt count segments num_segments range (vt * t + lb_lpn range)),
    show vt * nt + lb_lpn range = nt * vt + lb_lpn range by ring,
    show vt * 0 + lb_lpn range = lb_lpn range by ring,
    lb_path_total nt vt count segments num_segments range h,
    lb_path_lpn_zero nt vt count segments num_segments range h]
  ring

/-- C3 witness: on the concrete tile of the C1 witness the two threads have
`merge_flags` 6 and 3, whose low-`vt` popcounts 1 and 2 sum to
`a_count = 3`. -/
theorem load_balance_popcount_sum_witness :
    lb_pre 2 2 3 (fun _ => 0) 1 ⟨0, 3, 0, 1⟩ ∧
    ∑ t ∈ Finset.range 2,
      ((popcount
        ((lb_body 2 2 3 (fun _ => 0) 1 t ⟨0, 3, 0, 1⟩ (fun _ => 37)).merge_flags &&&
          ((1 <<< 2) - 1)) : Nat) : Int) =
      (⟨0, 3, 0, 1⟩ : merge_range_t).a_count :=
  ⟨demo_pre, load_balance_popcount_sum 2 2 3 (fun _ => 0) 1 ⟨0, 3, 0, 1⟩
    (fun _ => 37) demo_pre⟩

theorem length_filterMap_if {α β : Type} (g : β → α) (p : β → Bool) :
    ∀ l : List β,
    (l.filterMap (fun k => if p k then some (g k) else none)).length =
      (l.filter p).length := by
  intro l
  induction l with
  | nil => rfl
  | cons a rest ih =>
    rw [List.filterMap_cons, List.filter_cons]
    by_cases hp : p a = true
    · rw [hp]
      simp only [if_true, List.length_cons, ih]
    · have hp' : p a = false := by
        cases hpa : p a
        · rfl
        · exact absurd hpa hp
      rw [hp']
      simp only [Bool.false_eq_true, if_false, ih]

/-- C7 (amended): in the returned `merge_flags`, bit `k` (for `k < vt + 1`)
records the raw comparison `p = cur_item < b_shared[cur_segment + 1]` of
step `k` (`lb_pbit`); for the first `vt` steps this coincides with "the step
advanced the output stream A" (`cur_item` was incremented), and the
popcount of the low `vt` bits equals the number of outputs written by the
thread.  The claim as stated is false for `k = vt`: the final lookahead step
sets bit `vt` to `p` but always advances B (see the counterexample). -/
theorem load_balance_merge_flags_bits (nt vt : Nat) (count : Int)
    (segments : Int → Int) (num_segments : Int) (tid : Nat)
    (range : merge_range_t) (σ0 : Int → Int) :
    (∀ k : Nat, k < vt + 1 →
      Nat.testBit
        (lb_body nt vt count segments num_segments tid range σ0).merge_flags k =
        lb_pbit nt vt count segments num_segments range σ0 tid k) ∧
    (∀ k : Nat, k < vt →
      (Nat.testBit
        (lb_body nt vt count segments num_segments tid range σ0).merge_flags k =
          true ↔
        (lb_thread_run nt vt count segments num_segments range σ0 tid
          (k + 1)).cur_item =
        (lb_thread_run nt vt count segments num_segments range σ0 tid
          k).cur_item + 1)) ∧
    popcount
      ((lb_body nt vt count segments num_segments tid range σ0).merge_flags &&&
        ((1 <<< vt) - 1)) =
      (lb_thread_run nt vt count segments num_segments range σ0 tid
        (vt + 1)).writes.length := by
  have hbit : ∀ k : Nat, k < vt + 1 →
      Nat.testBit
        (lb_body nt vt count segments num_segments tid range σ0).merge_flags k =
        lb_pbit nt vt count segments num_segments range σ0 tid k := by
    intro k hk
    rw [lb_body_flags, lb_run_flags, testBit_flagsOf]
    simp [hk]
  refine ⟨hbit, ?_, ?_⟩
  · intro k hk
    rw [hbit k (by omega), lb_thread_run_succ]
    by_cases hp : lb_pbit nt vt count segments num_segments range σ0 tid k = true
    · have hcond : (decide
          ((lb_thread_run nt vt count segments num_segments range σ0 tid k).cur_item <
            lb_sigma1 nt vt count segments num_segments range σ0
              (range.a_count +
                ((lb_thread_run nt vt count segments num_segments range σ0 tid k).cur_segment +
                  1 - (place_range range count num_segments).b_begin))) &&
          decide (k < vt)) = true := by
        rw [show decide
            ((lb_thread_run nt vt count segments num_segments range σ0 tid k).cur_item <
              lb_sigma1 nt vt count segments num_segments range σ0
                (range.a_count +
                  ((lb_thread_run nt vt count segments num_segments range σ0 tid k).cur_segment +
                    1 - (place_range range count num_segments).b_begin))) =
            lb_pbit nt vt count segments num_segments range σ0 tid k from rfl,
          hp]
        simp [hk]
      rw [(lb_step_cur_pos _ _ _ _ _ _ hcond).1]
      simp [hp]
    · have hcond : ¬ (decide
          ((lb_thread_run nt vt count segments num_segments range σ0 tid k).cur_item <
            lb_sigma1 nt vt count segments num_segments range σ0
              (range.a_count +
                ((lb_thread_run nt vt count segments num_segments range σ0 tid k).cur_segment +
                  1 - (place_range range count num_segments).b_begin))) &&
          decide (k < vt)) = true := by
        rw [show decide
            ((lb_thread_run nt vt count segments num_segments range σ0 tid k).cur_item <
              lb_sigma1 nt vt count segments num_segments range σ0
                (range.a_count +
                  ((lb_thread_run nt vt count segments num_segments range σ0 tid k).cur_segment +
                    1 - (place_range range count num_segments).b_begin))) =
            lb_pbit nt vt count segments num_segments range σ0 tid k from rfl]
        simp [hp]
      rw [(lb_step_cur_neg _ _ _ _ _ _ hcond).1]
      constructor
      · intro hfalse
        exact absurd hfalse hp
      · intro heq
        omega
  · rw [lb_body_flags, lb_run_flags,
      show (1 <<< vt) - 1 = 2 ^ vt - 1 by rw [Nat.shiftLeft_eq, one_mul],
      flagsOf_land_two_pow_sub_one, show min (vt + 1) vt = vt by omega,
      popcount_flagsOf, lb_run_writes, length_filterMap_if]
    rw [List.range_succ, List.filter_append]
    have hlast : List.filter (fun k =>
        lb_pbit nt vt count segments num_segments range σ0 tid k &&
          decide (k < vt)) [vt] = [] := by simp
    rw [hlast, List.append_nil]
    congr 1
    apply List.filter_congr
    intro k hk
    have : decide (k < vt) = true := by
      simp [List.mem_range.mp hk]
    rw [this, Bool.and_true]

/-- C7 counterexample: on the concrete tile of the C1 witness, thread 0 has
`merge_flags = 6`: bit `vt = 2` is set, yet step 2 did not advance the
output stream A (`cur_item` is unchanged) — it advanced the segment stream B
(`cur_segment` was incremented).  So "bit k set iff the step advanced A" is
false at `k = vt`. -/
theorem load_balance_merge_flags_bits_counterexample :
    lb_pre 2 2 3 (fun _ => 0) 1 ⟨0, 3, 0, 1⟩ ∧
    Nat.testBit
      (lb_body 2 2 3 (fun _ => 0) 1 0 ⟨0, 3, 0, 1⟩ (fun _ => 37)).merge_flags 2 =
      true ∧
    (lb_thread_run 2 2 3 (fun _ => 0) 1 ⟨0, 3, 0, 1⟩ (fun _ => 37) 0 3).cur_item =
      (lb_thread_run 2 2 3 (fun _ => 0) 1 ⟨0, 3, 0, 1⟩ (fun _ => 37) 0 2).cur_item ∧
    (lb_thread_run 2 2 3 (fun _ => 0) 1 ⟨0, 3, 0, 1⟩ (fun _ => 37) 0 3).cur_segment =
      (lb_thread_run 2 2 3 (fun _ => 0) 1 ⟨0, 3, 0, 1⟩ (fun _ => 37) 0 2).cur_segment + 1 :=
  ⟨demo_pre, by decide, by decide, by decide⟩

/-- C7 witness: the amended theorem applied to thread 0 of the concrete
tile, instantiated at bit 1 (which is set and did advance A). -/
theorem load_balance_merge_flags_bits_witness :
    (1 < 2 + 1 ∧
      Nat.testBit
        (lb_body 2 2 3 (fun _ => 0) 1 0 ⟨0, 3, 0, 1⟩ (fun _ => 37)).merge_flags 1 =
        lb_pbit 2 2 3 (fun _ => 0) 1 ⟨0, 3, 0, 1⟩ (fun _ => 37) 0 1) ∧
    (1 < 2 ∧
      (Nat.testBit
        (lb_body 2 2 3 (fun _ => 0) 1 0 ⟨0, 3, 0, 1⟩ (fun _ => 37)).merge_flags 1 =
          true ↔
        (lb_thread_run 2 2 3 (fun _ => 0) 1 ⟨0, 3, 0, 1⟩ (fun _ => 37) 0 2).cur_item =
          (lb_thread_run 2 2 3 (fun _ => 0) 1 ⟨0, 3, 0, 1⟩ (fun _ => 37) 0 1).cur_item + 1)) ∧
    popcount
      ((lb_body 2 2 3 (fun _ => 0) 1 0 ⟨0, 3, 0, 1⟩ (fun _ => 37)).merge_flags &&&
        ((1 <<< 2) - 1)) =
      (lb_thread_run 2 2 3 (fun _ => 0) 1 ⟨0, 3, 0, 1⟩ (fun _ => 37) 0 3).writes.length := by
  obtain ⟨h1, h2, h3⟩ := load_balance_merge_flags_bits 2 2 3 (fun _ => 0) 1 0
    ⟨0, 3, 0, 1⟩ (fun _ => 37)
  exact ⟨⟨by omega, h1 1 (by omega)⟩, ⟨by omega, h2 1 (by omega)⟩, h3⟩

/-- C8 (confirmed): under the documented preconditions, the `a_shared`
slots written during the `vt + 1` serial merge steps of two distinct
threads are disjoint: the `cur_item` addresses of their write lists never
coincide. -/
theorem load_balance_writes_disjoint (nt vt : Nat) (count : Int)
    (segments : Int → Int) (num_segments : Int) (range : merge_range_t)
    (σ0 : Int → Int) (h : lb_pre nt vt count segments num_segments range)
    (t1 t2 : Nat) (ht1 : t1 < nt) (ht2 : t2 < nt) (hne : t1 ≠ t2) :
    ∀ w1 ∈ (lb_thread_run nt vt count segments num_segments range σ0 t1
        (vt + 1)).writes,
    ∀ w2 ∈ (lb_thread_run nt vt count segments num_segments range σ0 t2
        (vt + 1)).writes,
    w1.1 ≠ w2.1 := by
  have aux : ∀ ta tb : Nat, ta < tb →
      ∀ w1 ∈ lb_writes_spec nt vt count segments num_segments range ta,
      ∀ w2 ∈ lb_writes_spec nt vt count segments num_segments range tb,
      w1.1 < w2.1 := by
    intro ta tb htab w1 hw1 w2 hw2
    obtain ⟨k, hk, hadv, rfl⟩ :=
      (lb_writes_spec_mem nt vt count segments num_segments range).mp hw1
    obtain ⟨k', hk', hadv', rfl⟩ :=
      (lb_writes_spec_mem nt vt count segments num_segments range).mp hw2
    have hdd : vt * ta + lb_lpn range + k < vt * tb + lb_lpn range + k' := by
      have : vt * ta + vt ≤ vt * tb := by
        calc vt * ta + vt = vt * (ta + 1) := by ring
          _ ≤ vt * tb := Nat.mul_le_mul_left vt htab
      omega
    have := lb_adv_path_lt nt vt count segments num_segments range hdd hadv
    dsimp only
    omega
  intro w1 hw1 w2 hw2
  rw [lb_writes_eq_spec nt vt count segments num_segments range σ0 h t1 ht1]
    at hw1
  rw [lb_writes_eq_spec nt vt count segments num_segments range σ0 h t2 ht2]
    at hw2
  rcases Nat.lt_or_ge t1 t2 with hlt | hge
  · exact ne_of_lt (aux t1 t2 hlt w1 hw1 w2 hw2)
  · have hlt : t2 < t1 := by omega
    exact (ne_of_lt (aux t2 t1 hlt w2 hw2 w1 hw1)).symm

/-- C8 witness: on the concrete tile of the C1 witness, thread 0 writes
slot 0 and thread 1 writes slots 1 and 2; the theorem applied to the two
threads, instantiated at their first writes. -/
theorem load_balance_writes_disjoint_witness :
    lb_pre 2 2 3 (fun _ => 0) 1 ⟨0, 3, 0, 1⟩ ∧
    ((0 : Int), (0 : Int)) ∈
      (lb_thread_run 2 2 3 (fun _ => 0) 1 ⟨0, 3, 0, 1⟩ (fun _ => 37) 0 3).writes ∧
    ((1 : Int), (0 : Int)) ∈
      (lb_thread_run 2 2 3 (fun _ => 0) 1 ⟨0, 3, 0, 1⟩ (fun _ => 37) 1 3).writes ∧
    (((0 : Int), (0 : Int)) : Int × Int).1 ≠
      (((1 : Int), (0 : Int)) : Int × Int).1 := by
  refine ⟨demo_pre, by decide, by decide, ?_⟩
  exact load_balance_writes_disjoint 2 2 3 (fun _ => 0) 1 ⟨0, 3, 0, 1⟩
    (fun _ => 37) demo_pre 0 1 (by omega) (by omega) (by omega)
    ((0 : Int), (0 : Int)) (by decide) ((1 : Int), (0 : Int)) (by decide)

/-- C4 (confirmed): under the documented preconditions, an empty segment
(`segments s = segments (s+1)`, reading the terminal entry as `count`)
never appears as the segment id of an active lane: every assigned id `s`
satisfies `segments s ≤ i < segments (s+1)` for its output `i`, which an
empty segment cannot. -/
theorem load_balance_empty_segment_unassigned (nt vt : Nat) (count : Int)
    (segments : Int → Int) (num_segments : Int) (tid : Nat)
    (range : merge_range_t) (σ0 : Int → Int)
    (h : lb_pre nt vt count segments num_segments range) (s : Int)
    (hs0 : 0 ≤ s) (hs1 : s < num_segments)
    (hempty : segments s = seg_ext count segments num_segments (s + 1))
    (i : Nat) (hact : (nt : Int) * i + tid < range.a_count) :
    (lb_body nt vt count segments num_segments tid range σ0).segments i ≠ s := by
  rw [lb_body_segments, if_pos hact]
  have hj0 : (0 : Int) ≤ (nt : Int) * i + tid := by positivity
  obtain ⟨d, hd1, hd2, hadv, hpath, hval⟩ :=
    lb_sigma2_val nt vt count segments num_segments range σ0 h
      ((nt : Int) * i + tid) hj0 hact
  rw [hval]
  intro hEq
  by_cases hy : 1 ≤ (d : Int) - ((nt : Int) * i + tid)
  · have hlow := lb_write_lower nt vt count segments num_segments range h
      hadv (by rw [hpath]; omega)
    rw [hpath] at hlow
    have hupper := lb_write_upper nt vt count segments num_segments range h
      hd2 hadv
    rw [hpath] at hupper
    rw [hEq] at hlow
    rw [show range.b_begin - lb_lp range +
        ((d : Int) - ((nt : Int) * i + tid)) = s + 1 by omega] at hupper
    omega
  · have hyge : 0 ≤ (d : Int) - ((nt : Int) * i + tid) := by
      have h1 := lb_path_le_diag nt vt count segments num_segments range d
      rw [hpath] at h1
      omega
    rcases lb_lp01 range with hlp | hlp
    · have hb0 := lb_lp_zero_b_begin nt vt count segments num_segments range
        h hlp
      omega
    · have := lb_write_y_pos nt vt count segments num_segments range h
        (Or.inl hlp) hadv
      rw [hpath] at this
      omega

/-- C4 witness: `count = 3`, `segments = [0, 3]` has the empty segment
`s = 1` (`segments 1 = 3 = count`); on the single full tile no active lane
receives id 1. -/
theorem load_balance_empty_segment_unassigned_witness :
    lb_pre 2 2 3 (fun s => if s ≤ 0 then 0 else 3) 2 ⟨0, 3, 0, 1⟩ ∧
    (fun s : Int => if s ≤ 0 then (0 : Int) else 3) 1 =
      seg_ext 3 (fun s => if s ≤ 0 then 0 else 3) 2 (1 + 1) ∧
    ((2 : Int) * 0 + 0 < (⟨0, 3, 0, 1⟩ : merge_range_t).a_count) ∧
    (lb_body 2 2 3 (fun s => if s ≤ 0 then 0 else 3) 2 0 ⟨0, 3, 0, 1⟩
      (fun _ => 37)).segments 0 ≠ 1 := by
  have hpre : lb_pre 2 2 3 (fun s => if s ≤ 0 then 0 else 3) 2 ⟨0, 3, 0, 1⟩ := by
    refine ⟨by norm_num, by norm_num, by decide, by decide, by decide, by decide,
      by decide, by decide, by decide, ?_, ?_, ?_, ?_⟩
    · intro s s' hs hss' hlt
      by_cases h1 : s ≤ 0 <;> by_cases h2 : s' ≤ 0 <;>
        simp [h1, h2] <;> omega
    · intro s h0 h1
      by_cases h2 : s ≤ 0 <;> simp [h2] <;> norm_num
    · exact ⟨Or.inl rfl, Or.inl rfl⟩
    · exact ⟨Or.inr (Or.inr (by norm_num)), Or.inr (Or.inl rfl)⟩
  refine ⟨hpre, by decide, by decide, ?_⟩
  exact load_balance_empty_segment_unassigned 2 2 3
    (fun s => if s ≤ 0 then 0 else 3) 2 0 ⟨0, 3, 0, 1⟩ (fun _ => 37) hpre 1
    (by norm_num) (by norm_num) (by decide) 0 (by decide)

/-- C6 (amended): after the staging phase of `cta_load_balance_place` the
shared `b_shared` window holds exactly
`load_count + fill_count = nv + 1 + load_preceding - a_count` entries (the
spec formula omits the `- a_count` term): the first `load_count` of them
are `segments[range.b_begin + i]` (for the adjusted `b_begin`) and the
trailing `fill_count` equal the sentinel `count`. -/
theorem place_staging_window (nt vt : Nat) (count : Int)
    (segments : Int → Int) (num_segments : Int) (range : merge_range_t)
    (σ0 : Int → Int) (h : lb_pre nt vt count segments num_segments range) :
    lb_load_count range count num_segments +
        lb_fill_count nt vt range count num_segments =
      (nt : Int) * vt + 1 + lb_lp range - range.a_count ∧
    (∀ i : Int, 0 ≤ i → i < lb_load_count range count num_segments →
      lb_sigma1 nt vt count segments num_segments range σ0
          (range.a_count + i) =
        segments ((place_range range count num_segments).b_begin + i)) ∧
    (∀ i : Int, lb_load_count range count num_segments ≤ i →
      i < lb_load_count range count num_segments +
          lb_fill_count nt vt range count num_segments →
      lb_sigma1 nt vt count segments num_segments range σ0
          (range.a_count + i) = count) := by
  have hF := lb_fill_count_eq nt vt count segments num_segments range h
  have heps := lb_eps01 range count num_segments
  refine ⟨lb_bc_eq nt vt count segments num_segments range h, ?_, ?_⟩
  · intro i hi0 hi1
    rw [lb_sigma1_window nt vt count segments num_segments range σ0 h i hi0
      (by omega)]
    rw [lb_window, if_pos hi1]
  · intro i hi0 hi1
    have hL := lb_load_count_nonneg nt vt count segments num_segments range h
    rw [lb_sigma1_window nt vt count segments num_segments range σ0 h i
      (by omega) hi1]
    rw [lb_window, if_neg (by omega)]

/-- C6 counterexample: on the concrete tile of the C1 witness
(`nt = vt = 2`, `count = 3`, one segment, full tile with
`load_preceding = 0`), the window holds `load_count + fill_count = 2`
entries while the spec formula `nv + 1 + load_preceding` gives `5`. -/
theorem place_staging_window_counterexample :
    lb_pre 2 2 3 (fun _ => 0) 1 ⟨0, 3, 0, 1⟩ ∧
    lb_load_count ⟨0, 3, 0, 1⟩ 3 1 +
        lb_fill_count 2 2 ⟨0, 3, 0, 1⟩ 3 1 ≠
      (2 : Int) * 2 + 1 + lb_lp ⟨0, 3, 0, 1⟩ := by
  exact ⟨demo_pre, by decide⟩

/-- C6 witness: the amended theorem applied to the concrete tile of the C1
witness; there `load_count + fill_count = 2 = nv + 1 + 0 - 3`. -/
theorem place_staging_window_witness :
    lb_pre 2 2 3 (fun _ => 0) 1 ⟨0, 3, 0, 1⟩ ∧
    (lb_load_count ⟨0, 3, 0, 1⟩ 3 1 + lb_fill_count 2 2 ⟨0, 3, 0, 1⟩ 3 1 =
      (2 : Int) * 2 + 1 + lb_lp ⟨0, 3, 0, 1⟩ -
        (⟨0, 3, 0, 1⟩ : merge_range_t).a_count ∧
    (∀ i : Int, 0 ≤ i → i < lb_load_count ⟨0, 3, 0, 1⟩ 3 1 →
      lb_sigma1 2 2 3 (fun _ => 0) 1 ⟨0, 3, 0, 1⟩ (fun _ => 37)
          ((⟨0, 3, 0, 1⟩ : merge_range_t).a_count + i) =
        (fun _ : Int => (0 : Int))
          ((place_range ⟨0, 3, 0, 1⟩ 3 1).b_begin + i)) ∧
    (∀ i : Int, lb_load_count ⟨0, 3, 0, 1⟩ 3 1 ≤ i →
      i < lb_load_count ⟨0, 3, 0, 1⟩ 3 1 +
          lb_fill_count 2 2 ⟨0, 3, 0, 1⟩ 3 1 →
      lb_sigma1 2 2 3 (fun _ => 0) 1 ⟨0, 3, 0, 1⟩ (fun _ => 37)
          ((⟨0, 3, 0, 1⟩ : merge_range_t).a_count + i) = 3)) :=
  ⟨demo_pre,
    place_staging_window 2 2 3 (fun _ => 0) 1 ⟨0, 3, 0, 1⟩ (fun _ => 37)
      demo_pre⟩

/-- C10 (confirmed): under the documented preconditions every shared-memory
access of `load_balance` and `cta_load_balance_place` stays inside
`storage.indices[0 .. nv+2)`: `fill_count` is 0 or 1; the sentinel fill
writes indices `a_count + load_count + i`, the B-window load writes indices
`a_count + i`, the serial merge reads `b_shared[cur_segment + 1]` (storage
index `a_count + (cur_segment + 1 - b_begin')`) and writes
`a_shared[cur_item]` (storage index `cur_item - a_begin`), and the strided
readout reads `storage.indices[j]` and `b_shared[seg]` — all in
`[0, nv + 2)`. -/
theorem load_balance_shared_bounds (nt vt : Nat) (count : Int)
    (segments : Int → Int) (num_segments : Int) (range : merge_range_t)
    (σ0 : Int → Int) (h : lb_pre nt vt count segments num_segments range) :
    (lb_fill_count nt vt range count num_segments = 0 ∨
      lb_fill_count nt vt range count num_segments = 1) ∧
    (∀ i : Int, 0 ≤ i → i < lb_fill_count nt vt range count num_segments →
      0 ≤ range.a_count + lb_load_count range count num_segments + i ∧
      range.a_count + lb_load_count range count num_segments + i <
        (nt : Int) * vt + 2) ∧
    (∀ i : Int, 0 ≤ i → i < lb_load_count range count num_segments →
      0 ≤ range.a_count + i ∧
      range.a_count + i < (nt : Int) * vt + 2) ∧
    (∀ t : Nat, t < nt → ∀ i : Nat, i ≤ vt →
      0 ≤ range.a_count +
        ((lb_thread_run nt vt count segments num_segments range σ0 t
            i).cur_segment + 1 -
          (place_range range count num_segments).b_begin) ∧
      range.a_count +
        ((lb_thread_run nt vt count segments num_segments range σ0 t
            i).cur_segment + 1 -
          (place_range range count num_segments).b_begin) <
        (nt : Int) * vt + 2) ∧
    (∀ t : Nat, t < nt →
      ∀ w ∈ (lb_thread_run nt vt count segments num_segments range σ0 t
          (vt + 1)).writes,
      0 ≤ w.1 - range.a_begin ∧ w.1 - range.a_begin < range.a_count ∧
        range.a_count ≤ (nt : Int) * vt) ∧
    (∀ tid : Nat, tid < nt → ∀ i : Nat,
      (nt : Int) * i + tid < range.a_count →
      (0 ≤ (nt : Int) * i + tid ∧
        (nt : Int) * i + tid < (nt : Int) * vt + 2) ∧
      (0 ≤ range.a_count +
          (lb_sigma2 nt vt count segments num_segments range σ0
              ((nt : Int) * i + tid) -
            (place_range range count num_segments).b_begin) ∧
        range.a_count +
          (lb_sigma2 nt vt count segments num_segments range σ0
              ((nt : Int) * i + tid) -
            (place_range range count num_segments).b_begin) <
          (nt : Int) * vt + 2)) := by
  have hβ := lb_bc_eq nt vt count segments num_segments range h
  have hF := lb_fill_count_eq nt vt count segments num_segments range h
  have heps01 := lb_eps01 range count num_segments
  have hlp01 := lb_lp01 range
  have hac0 := lb_a_count_nonneg nt vt count segments num_segments range h
  have hacnv := lb_a_count_le_nv nt vt count segments num_segments range h
  have hL0 := lb_load_count_nonneg nt vt count segments num_segments range h
  refine ⟨by omega, ?_, ?_, ?_, ?_, ?_⟩
  · intro i hi0 hi1
    omega
  · intro i hi0 hi1
    omega
  · intro t ht i hi
    obtain ⟨-, hcs⟩ := lb_run_state nt vt count segments num_segments range
      σ0 h t ht i hi
    rw [hcs, place_range_eq]
    dsimp only
    have hy0 := lb_path_le_diag nt vt count segments num_segments range
      (vt * t + lb_lpn range + i)
    have hmul : vt * t + i ≤ nt * vt := by
      calc vt * t + i ≤ vt * t + vt := by omega
        _ = vt * (t + 1) := by ring
        _ ≤ vt * nt := Nat.mul_le_mul_left vt ht
        _ = nt * vt := Nat.mul_comm vt nt
    have hdle : ((vt * t + lb_lpn range + i : Nat) : Int) ≤
        (nt : Int) * vt + lb_lp range := by
      have hc : ((vt * t + i : Nat) : Int) ≤ ((nt * vt : Nat) : Int) :=
        Int.ofNat_le.mpr hmul
      rw [lb_lp_eq_lpn]
      push_cast at hc ⊢
      omega
    have hyle := lb_path_y_le nt vt count segments num_segments range h
      (vt * t + lb_lpn range + i) hdle
    omega
  · intro t ht w hw
    rw [lb_writes_eq_spec nt vt count segments num_segments range σ0 h t ht]
      at hw
    have := lb_writes_spec_key_bounds nt vt count segments num_segments
      range hw
    omega
  · intro tid htid i hact
    have hj0 : (0 : Int) ≤ (nt : Int) * i + tid := by positivity
    obtain ⟨d, hd1, hd2, hadv, hpath, hval⟩ :=
      lb_sigma2_val nt vt count segments num_segments range σ0 h
        ((nt : Int) * i + tid) hj0 hact
    rw [hval, place_range_eq]
    dsimp only
    have hy0 := lb_path_le_diag nt vt count segments num_segments range d
    rw [hpath] at hy0
    have hyL := lb_write_y_le_L nt vt count segments num_segments range h hadv
    rw [hpath] at hyL
    omega

/-- C10 witness: the bounds theorem applied to the concrete tile of the C1
witness (`nv = 4`, buffer size 6), instantiated at the fill write `i = 0`,
the load write `i = 0`, thread 1's read after 2 merge steps, thread 1's
write of slot 1, and the active readout lane `tid = 0, i = 1`. -/
theorem load_balance_shared_bounds_witness :
    lb_pre 2 2 3 (fun _ => 0) 1 ⟨0, 3, 0, 1⟩ ∧
    (lb_fill_count 2 2 ⟨0, 3, 0, 1⟩ 3 1 = 0 ∨
      lb_fill_count 2 2 ⟨0, 3, 0, 1⟩ 3 1 = 1) ∧
    (0 ≤ (⟨0, 3, 0, 1⟩ : merge_range_t).a_count +
        lb_load_count ⟨0, 3, 0, 1⟩ 3 1 + 0 ∧
      (⟨0, 3, 0, 1⟩ : merge_range_t).a_count +
        lb_load_count ⟨0, 3, 0, 1⟩ 3 1 + 0 < (2 : Int) * 2 + 2) ∧
    (0 ≤ (⟨0, 3, 0, 1⟩ : merge_range_t).a_count +
        ((lb_thread_run 2 2 3 (fun _ => 0) 1 ⟨0, 3, 0, 1⟩ (fun _ => 37) 1
            2).cur_segment + 1 - (place_range ⟨0, 3, 0, 1⟩ 3 1).b_begin) ∧
      (⟨0, 3, 0, 1⟩ : merge_range_t).a_count +
        ((lb_thread_run 2 2 3 (fun _ => 0) 1 ⟨0, 3, 0, 1⟩ (fun _ => 37) 1
            2).cur_segment + 1 - (place_range ⟨0, 3, 0, 1⟩ 3 1).b_begin) <
        (2 : Int) * 2 + 2) ∧
    (0 ≤ (((1 : Int), (0 : Int)) : Int × Int).1 -
        (⟨0, 3, 0, 1⟩ : merge_range_t).a_begin ∧
      (((1 : Int), (0 : Int)) : Int × Int).1 -
          (⟨0, 3, 0, 1⟩ : merge_range_t).a_begin <
        (⟨0, 3, 0, 1⟩ : merge_range_t).a_count ∧
      (⟨0, 3, 0, 1⟩ : merge_range_t).a_count ≤ (2 : Int) * 2) ∧
    (0 ≤ (⟨0, 3, 0, 1⟩ : merge_range_t).a_count +
        (lb_sigma2 2 2 3 (fun _ => 0) 1 ⟨0, 3, 0, 1⟩ (fun _ => 37)
            ((2 : Int) * 1 + 0) - (place_range ⟨0, 3, 0, 1⟩ 3 1).b_begin) ∧
      (⟨0, 3, 0, 1⟩ : merge_range_t).a_count +
        (lb_sigma2 2 2 3 (fun _ => 0) 1 ⟨0, 3, 0, 1⟩ (fun _ => 37)
            ((2 : Int) * 1 + 0) - (place_range ⟨0, 3, 0, 1⟩ 3 1).b_begin) <
        (2 : Int) * 2 + 2) := by
  have H := load_balance_shared_bounds 2 2 3 (fun _ => 0) 1 ⟨0, 3, 0, 1⟩
    (fun _ => 37) demo_pre
  exact ⟨demo_pre, H.1, H.2.1 0 (by norm_num) (by decide),
    H.2.2.2.1 1 (by norm_num) 2 (by norm_num),
    H.2.2.2.2.1 1 (by norm_num) ((1 : Int), (0 : Int)) (by decide),
    (H.2.2.2.2.2 0 (by norm_num) 1 (by decide)).2⟩

theorem result_t_ext (r r' : result_t) (h1 : r.placement = r'.placement)
    (h2 : r.merge_range = r'.merge_range) (h3 : r.merge_flags = r'.merge_flags)
    (h4 : r.indices = r'.indices) (h5 : r.segments = r'.segments)
    (h6 : r.ranks = r'.ranks) : r = r' := by
  cases r
  cases r'
  cases h1
  cases h2
  cases h3
  cases h4
  cases h5
  cases h6
  rfl

theorem lb_sigma2_indep (nt vt : Nat) (count : Int) (segments : Int → Int)
    (num_segments : Int) (range : merge_range_t) (σ0 σ0' : Int → Int)
    (h : lb_pre nt vt count segments num_segments range) (j : Int)
    (hj : (0 ≤ j ∧ j < range.a_count) ∨
      (range.a_count ≤ j ∧
        j < range.a_count + lb_load_count range count num_segments +
          lb_fill_count nt vt range count num_segments)) :
    lb_sigma2 nt vt count segments num_segments range σ0 j =
      lb_sigma2 nt vt count segments num_segments range σ0' j := by
  have hF := lb_fill_count_eq nt vt count segments num_segments range h
  have heps01 := lb_eps01 range count num_segments
  have hL0 := lb_load_count_nonneg nt vt count segments num_segments range h
  rcases hj with ⟨hj0, hj1⟩ | ⟨hj0, hj1⟩
  · obtain ⟨d, hd1, hd2, hadv, hpath, hval⟩ :=
      lb_sigma2_val nt vt count segments num_segments range σ0 h j hj0 hj1
    obtain ⟨d', hd1', hd2', hadv', hpath', hval'⟩ :=
      lb_sigma2_val nt vt count segments num_segments range σ0' h j hj0 hj1
    have hdd : d = d' := by
      by_contra hne
      rcases Nat.lt_or_ge d d' with hlt | hge
      · have := lb_adv_path_lt nt vt count segments num_segments range hlt hadv
        omega
      · have hlt : d' < d := by omega
        have := lb_adv_path_lt nt vt count segments num_segments range hlt hadv'
        omega
    rw [hval, hval', hdd]
  · rw [lb_sigma2_untouched nt vt count segments num_segments range σ0 h j
      (Or.inr hj0),
      lb_sigma2_untouched nt vt count segments num_segments range σ0' h j
      (Or.inr hj0),
      lb_sigma1_eq nt vt count segments num_segments range σ0 h.hnt hL0
        (by omega) j,
      lb_sigma1_eq nt vt count segments num_segments range σ0' h.hnt hL0
        (by omega) j,
      if_pos ⟨hj0, by omega⟩, if_pos ⟨hj0, by omega⟩]

theorem lb_body_indep (nt vt : Nat) (count : Int) (segments : Int → Int)
    (num_segments : Int) (tid : Nat) (range : merge_range_t)
    (σ0 σ0' : Int → Int) (h : lb_pre nt vt count segments num_segments range)
    (htid : tid < nt) :
    lb_body nt vt count segments num_segments tid range σ0 =
      lb_body nt vt count segments num_segments tid range σ0' := by
  have hσj : ∀ j : Int, 0 ≤ j → j < range.a_count →
      lb_sigma2 nt vt count segments num_segments range σ0 j =
        lb_sigma2 nt vt count segments num_segments range σ0' j :=
    fun j hj0 hj1 =>
      lb_sigma2_indep nt vt count segments num_segments range σ0 σ0' h j
        (Or.inl ⟨hj0, hj1⟩)
  have hF := lb_fill_count_eq nt vt count segments num_segments range h
  have heps01 := lb_eps01 range count num_segments
  refine result_t_ext _ _ ?_ rfl ?_ rfl ?_ ?_
  · show lb_placement nt vt count segments num_segments range σ0 tid =
      lb_placement nt vt count segments num_segments range σ0' tid
    simp only [lb_placement]
    rw [lb_mp_eq_path nt vt count segments num_segments range σ0 h,
      lb_mp_eq_path nt vt count segments num_segments range σ0' h]
  · show (lb_thread_run nt vt count segments num_segments range σ0 tid
        (vt + 1)).merge_flags =
      (lb_thread_run nt vt count segments num_segments range σ0' tid
        (vt + 1)).merge_flags
    rw [lb_run_flags, lb_run_flags]
    apply flagsOf_congr
    intro k hk
    rcases Nat.lt_or_ge k vt with hkvt | hge
    · rw [lb_pbit_eq_adv nt vt count segments num_segments range σ0 h tid
        htid k hkvt,
        lb_pbit_eq_adv nt vt count segments num_segments range σ0' h tid
        htid k hkvt]
    · have hkeq : k = vt := by omega
      rw [hkeq, lb_pbit_last nt vt count segments num_segments range σ0 h tid htid,
        lb_pbit_last nt vt count segments num_segments range σ0' h tid htid]
  · funext i
    rw [lb_body_segments, lb_body_segments]
    by_cases hact : (nt : Int) * i + tid < range.a_count
    · rw [if_pos hact, if_pos hact, hσj _ (by positivity) hact]
    · rw [if_neg hact, if_neg hact]
  · funext i
    rw [lb_body_ranks, lb_body_ranks]
    by_cases hact : (nt : Int) * i + tid < range.a_count
    · rw [if_pos hact, if_pos hact]
      have hj0 : (0 : Int) ≤ (nt : Int) * i + tid := by positivity
      rw [hσj _ hj0 hact]
      obtain ⟨d, hd1, hd2, hadv, hpath, hval⟩ :=
        lb_sigma2_val nt vt count segments num_segments range σ0' h
          ((nt : Int) * i + tid) hj0 hact
      have hy0 := lb_path_le_diag nt vt count segments num_segments range d
      rw [hpath] at hy0
      have hyL := lb_write_y_le_L nt vt count segments num_segments range h
        hadv
      rw [hpath] at hyL
      congr 1
      apply lb_sigma2_indep nt vt count segments num_segments range σ0 σ0' h
      rw [hval, place_range_eq]
      dsimp only
      by_cases hy : 1 ≤ (d : Int) - ((nt : Int) * i + tid)
      · exact Or.inr ⟨by omega, by omega⟩
      · exact Or.inl ⟨by omega, by omega⟩
    · rw [if_neg hact, if_neg hact]

/-- C9 (confirmed): `load_balance` is deterministic.  The only
under-determined input of the source function is the initial contents of
the shared `storage.indices` buffer, modelled by `σ0`: two runs on
identical inputs `(count, segments, num_segments, tid, cta, partitions)`
with arbitrary (possibly different) initial shared-memory contents return
identical `result_t` values in every field. -/
theorem load_balance_deterministic (nt vt : Nat) (count : Int)
    (segments : Int → Int) (num_segments : Int) (tid : Nat) (cta : Int)
    (partitions : Int → Int) (σ0 σ0' : Int → Int)
    (h : lb_pre nt vt count segments num_segments
      (compute_merge_range count num_segments cta ((nt : Int) * vt)
        (partitions cta) (partitions (cta + 1))))
    (htid : tid < nt) :
    load_balance nt vt count segments num_segments tid cta partitions σ0 =
      load_balance nt vt count segments num_segments tid cta partitions σ0' := by
  rw [load_balance, load_balance]
  exact lb_body_indep nt vt count segments num_segments tid
    (compute_merge_range count num_segments cta ((nt : Int) * vt)
      (partitions cta) (partitions (cta + 1))) σ0 σ0' h htid

/-- C9 witness: on the concrete tile of the C1 witness (reached through
`partitions = [0, 3]` at `cta = 0`), two runs with different initial
shared-memory garbage (`37` and `41` everywhere) return the same result. -/
theorem load_balance_deterministic_witness :
    lb_pre 2 2 3 (fun _ => 0) 1
      (compute_merge_range 3 1 0 ((2 : Int) * 2)
        ((fun c : Int => if c ≤ 0 then (0 : Int) else 3) 0)
        ((fun c : Int => if c ≤ 0 then (0 : Int) else 3) (0 + 1))) ∧
    load_balance 2 2 3 (fun _ => 0) 1 0 0
        (fun c => if c ≤ 0 then 0 else 3) (fun _ => 37) =
      load_balance 2 2 3 (fun _ => 0) 1 0 0
        (fun c => if c ≤ 0 then 0 else 3) (fun _ => 41) := by
  have hpre : lb_pre 2 2 3 (fun _ => 0) 1
      (compute_merge_range 3 1 0 ((2 : Int) * 2)
        ((fun c : Int => if c ≤ 0 then (0 : Int) else 3) 0)
        ((fun c : Int => if c ≤ 0 then (0 : Int) else 3) (0 + 1))) := demo_pre
  exact ⟨hpre,
    load_balance_deterministic 2 2 3 (fun _ => 0) 1 0 0
      (fun c => if c ≤ 0 then 0 else 3) (fun _ => 37) (fun _ => 41) hpre
      (by norm_num)⟩

theorem cached_stage_eq (nt : Nat) (rbegin rend : Int) (it σ : Int → Int)
    (hnt : 1 ≤ nt) (j : Int) :
    cached_stage nt rbegin rend it σ j =
      if rbegin ≤ j ∧ j < rend then it j else σ j := by
  have main : ∀ l : List Nat,
      l.foldl (fun σ (tid : Nat) =>
          strided_loop nt 0 rend it (rend - rbegin).toNat
            (rbegin + (tid : Nat) : Int) σ) σ j =
        if ∃ tid ∈ l, rbegin + (tid : Int) ≤ j ∧ j < rend ∧
            (nt : Int) ∣ (j - (rbegin + tid)) then
          it j
        else σ j := by
    intro l
    induction l generalizing σ with
    | nil => simp
    | cons t rest ih =>
      rw [foldl_cons_apply, ih]
      by_cases hrest : ∃ tid ∈ rest, rbegin + (tid : Int) ≤ j ∧ j < rend ∧
          (nt : Int) ∣ (j - (rbegin + tid))
      · rw [if_pos hrest, if_pos]
        obtain ⟨tid, htid, hx⟩ := hrest
        exact ⟨tid, List.mem_cons_of_mem _ htid, hx⟩
      · rw [if_neg hrest,
          strided_loop_eq nt 0 rend it hnt (rend - rbegin).toNat
            (rbegin + (t : Nat) : Int) σ j (by omega)]
        simp only [sub_zero]
        by_cases ht : rbegin + (t : Int) ≤ j ∧ j < rend ∧
            (nt : Int) ∣ (j - (rbegin + t))
        · rw [if_pos ht, if_pos ⟨t, List.mem_cons_self t rest, ht⟩]
        · rw [if_neg ht, if_neg]
          rintro ⟨tid, htid, hx⟩
          rcases List.mem_cons.mp htid with rfl | hmem
          · exact ht hx
          · exact hrest ⟨tid, hmem, hx⟩
  rw [cached_stage, main]
  by_cases hj : rbegin ≤ j ∧ j < rend
  · rw [if_pos hj, if_pos]
    refine ⟨(j - rbegin).toNat % nt,
      List.mem_range.mpr (Nat.mod_lt _ (by omega)), ?_, hj.2, ?_⟩
    · have h2 := Nat.mod_le (j - rbegin).toNat nt
      omega
    · refine ⟨((j - rbegin).toNat / nt : Nat), ?_⟩
      have h2 := congrArg (Nat.cast : Nat → Int)
        (Nat.mod_add_div (j - rbegin).toNat nt)
      push_cast at h2 ⊢
      have h3 : ((j - rbegin).toNat : Int) = j - rbegin :=
        Int.toNat_of_nonneg (by omega)
      linarith
  · rw [if_neg hj, if_neg]
    rintro ⟨tid, htid, h1, h2, -⟩
    have : (0 : Int) ≤ (tid : Int) := by positivity
    omega

theorem cached_segment_load_length (nt vt : Nat) (rbegin rend : Int)
    (segs : Nat → Int) : ∀ (its : List (Int → Int)) (σ : Int → Int),
    (cached_segment_load nt vt rbegin rend segs its σ).length = its.length := by
  intro its
  induction its with
  | nil => intro σ; rfl
  | cons it rest ih =>
    intro σ
    show (cached_gather vt (cached_stage nt rbegin rend it σ) segs ::
        cached_segment_load nt vt rbegin rend segs rest
          (cached_stage nt rbegin rend it σ)).length = (it :: rest).length
    rw [List.length_cons, List.length_cons, ih]

theorem cached_segment_load_get (nt vt : Nat) (rbegin rend : Int)
    (segs : Nat → Int) (hnt : 1 ≤ nt) :
    ∀ (its : List (Int → Int)) (σ : Int → Int) (idx : Nat)
      (h1 : idx < its.length)
      (h2 : idx < (cached_segment_load nt vt rbegin rend segs its σ).length)
      (k : Nat), rbegin ≤ segs k → segs k < rend →
    (cached_segment_load nt vt rbegin rend segs its σ).get ⟨idx, h2⟩ k =
      its.get ⟨idx, h1⟩ (segs k) := by
  intro its
  induction its with
  | nil =>
    intro σ idx h1
    exact absurd h1 (by simp)
  | cons it rest ih =>
    intro σ idx h1 h2 k hk1 hk2
    cases idx with
    | zero =>
      show cached_stage nt rbegin rend it σ (segs k) = it (segs k)
      rw [cached_stage_eq nt rbegin rend it σ hnt, if_pos ⟨hk1, hk2⟩]
    | succ n =>
      exact ih (cached_stage nt rbegin rend it σ) n
        (Nat.lt_of_succ_lt_succ h1) (Nat.lt_of_succ_lt_succ h2) k hk1 hk2

/-- C5 (amended): when the segment array additionally starts a CSR
descriptor (`1 ≤ num_segments` and `segments 0 = 0`), every lane `k` with
`ranks[k] ≥ 0` receives `values[k].get<i> = iterators[i][segments[k]]` for
every attribute `i`, and every inactive lane's gather reads the shared
scratch inside the staged range `[range.begin, range.end)` (its segment id
`range.b_begin` lies in that window).  Without the CSR condition the claim
fails: an active lane's id can be `b_begin' - 1`, one below the window. -/
theorem cached_segment_load_correct (nt vt : Nat) (count : Int)
    (segments : Int → Int) (num_segments : Int) (tid : Nat)
    (range : merge_range_t) (σ0 σC : Int → Int) (its : List (Int → Int))
    (h : lb_pre nt vt count segments num_segments range)
    (hcsr : 1 ≤ num_segments ∧ segments 0 = 0) (htid : tid < nt)
    (idx : Nat) (h1 : idx < its.length)
    (h2 : idx < (cached_segment_load nt vt
        (place_range range count num_segments).b_begin
        (place_range range count num_segments).b_end
        ((lb_body nt vt count segments num_segments tid range σ0).segments)
        its σC).length)
    (k : Nat) :
    (0 ≤ (lb_body nt vt count segments num_segments tid range σ0).ranks k →
      (cached_segment_load nt vt
          (place_range range count num_segments).b_begin
          (place_range range count num_segments).b_end
          ((lb_body nt vt count segments num_segments tid range σ0).segments)
          its σC).get ⟨idx, h2⟩ k =
        its.get ⟨idx, h1⟩
          ((lb_body nt vt count segments num_segments tid range σ0).segments
            k)) ∧
    (range.a_count ≤ (nt : Int) * k + tid → k < vt →
      (place_range range count num_segments).b_begin ≤
        (lb_body nt vt count segments num_segments tid range σ0).segments k ∧
      (lb_body nt vt count segments num_segments tid range σ0).segments k <
        (place_range range count num_segments).b_end) := by
  have hL : lb_load_count range count num_segments =
      (place_range range count num_segments).b_end -
        (place_range range count num_segments).b_begin := by
    rw [lb_load_count, merge_range_t.b_count]
  constructor
  · intro hrank
    have hact : (nt : Int) * k + tid < range.a_count := by
      by_contra hno
      push_neg at hno
      rw [lb_body_ranks, if_neg (not_lt.mpr hno)] at hrank
      omega
    have hj0 : (0 : Int) ≤ (nt : Int) * k + tid := by positivity
    have hseg : (place_range range count num_segments).b_begin ≤
        (lb_body nt vt count segments num_segments tid range σ0).segments k ∧
        (lb_body nt vt count segments num_segments tid range σ0).segments k <
          (place_range range count num_segments).b_end := by
      rw [lb_body_segments, if_pos hact]
      obtain ⟨d, hd1, hd2, hadv, hpath, hval⟩ :=
        lb_sigma2_val nt vt count segments num_segments range σ0 h
          ((nt : Int) * k + tid) hj0 hact
      rw [hval]
      have hy1 := lb_write_y_pos nt vt count segments num_segments range h
        (Or.inr hcsr) hadv
      rw [hpath] at hy1
      have hyL := lb_write_y_le_L nt vt count segments num_segments range h
        hadv
      rw [hpath] at hyL
      rw [place_range_eq] at hL ⊢
      dsimp only at hL ⊢
      omega
    exact cached_segment_load_get nt vt
      (place_range range count num_segments).b_begin
      (place_range range count num_segments).b_end
      ((lb_body nt vt count segments num_segments tid range σ0).segments)
      h.hnt its σC idx h1 h2 k hseg.1 hseg.2
  · intro hin hkvt
    rw [lb_body_segments, if_neg (not_lt.mpr hin)]
    have hsum := h.hsum
    rw [merge_range_t.a_count, merge_range_t.b_count] at hsum
    have hmul : nt * k + tid + 1 ≤ nt * vt := by
      calc nt * k + tid + 1 ≤ nt * k + nt := by omega
        _ = nt * (k + 1) := by ring
        _ ≤ nt * vt := Nat.mul_le_mul_left nt hkvt
    have hcast : ((nt * k + tid + 1 : Nat) : Int) ≤ ((nt * vt : Nat) : Int) :=
      Int.ofNat_le.mpr hmul
    push_cast at hcast
    have hLeq := lb_load_count_eq range count num_segments
    have heps01 := lb_eps01 range count num_segments
    have hlp01 := lb_lp01 range
    rw [merge_range_t.b_count] at hLeq
    rw [merge_range_t.a_count] at hin
    rw [place_range_eq] at hL ⊢
    dsimp only at hL ⊢
    omega

/-- C5 counterexample: without a CSR-style first segment start, the claim
is false.  With one segment starting at 1 (`segments = [1]`, `count = 1`),
the single lane is active with `ranks[0] = 1 ≥ 0` but its segment id is
`-1`, below the (empty) staged window, so the gather returns shared-memory
garbage (`7`) instead of `iterators[0][-1] = -1`. -/
theorem cached_segment_load_correct_counterexample :
    lb_pre 1 1 1 (fun s => if s = 0 then 1 else 5) 1 ⟨0, 1, 0, 0⟩ ∧
    0 ≤ (lb_body 1 1 1 (fun s => if s = 0 then 1 else 5) 1 0 ⟨0, 1, 0, 0⟩
      (fun _ => 37)).ranks 0 ∧
    (cached_segment_load 1 1 (place_range ⟨0, 1, 0, 0⟩ 1 1).b_begin
        (place_range ⟨0, 1, 0, 0⟩ 1 1).b_end
        ((lb_body 1 1 1 (fun s => if s = 0 then 1 else 5) 1 0 ⟨0, 1, 0, 0⟩
          (fun _ => 37)).segments)
        [fun x => x] (fun _ => 7)).get ⟨0, by decide⟩ 0 ≠
      (fun x : Int => x)
        ((lb_body 1 1 1 (fun s => if s = 0 then 1 else 5) 1 0 ⟨0, 1, 0, 0⟩
          (fun _ => 37)).segments 0) :=
  ⟨demo_pre_bad, by decide, by decide⟩

/-- C5 witness: on the CSR tile of the C1 witness with one iterator
`x ↦ x + 7`, lane 1 of thread 0 (`ranks = 2 ≥ 0`) gathers
`iterators[0][segments[1]]`, and the inactive lane 1 of thread 1 keeps a
segment id inside the staged window. -/
theorem cached_segment_load_correct_witness :
    lb_pre 2 2 3 (fun _ => 0) 1 ⟨0, 3, 0, 1⟩ ∧
    ((1 : Int) ≤ 1 ∧ (fun _ : Int => (0 : Int)) 0 = 0) ∧
    (cached_segment_load 2 2 (place_range ⟨0, 3, 0, 1⟩ 3 1).b_begin
        (place_range ⟨0, 3, 0, 1⟩ 3 1).b_end
        ((lb_body 2 2 3 (fun _ => 0) 1 0 ⟨0, 3, 0, 1⟩
          (fun _ => 37)).segments)
        [fun x => x + 7] (fun _ => 7)).get ⟨0, by decide⟩ 1 =
      ([fun x : Int => x + 7]).get ⟨0, by decide⟩
        ((lb_body 2 2 3 (fun _ => 0) 1 0 ⟨0, 3, 0, 1⟩
          (fun _ => 37)).segments 1) ∧
    ((place_range ⟨0, 3, 0, 1⟩ 3 1).b_begin ≤
        (lb_body 2 2 3 (fun _ => 0) 1 1 ⟨0, 3, 0, 1⟩
          (fun _ => 37)).segments 1 ∧
      (lb_body 2 2 3 (fun _ => 0) 1 1 ⟨0, 3, 0, 1⟩
          (fun _ => 37)).segments 1 <
        (place_range ⟨0, 3, 0, 1⟩ 3 1).b_end) := by
  refine ⟨demo_pre, ⟨by norm_num, rfl⟩, ?_, ?_⟩
  · exact (cached_segment_load_correct 2 2 3 (fun _ => 0) 1 0 ⟨0, 3, 0, 1⟩
      (fun _ => 37) (fun _ => 7) [fun x => x + 7] demo_pre
      ⟨by norm_num, rfl⟩ (by norm_num) 0 (by decide) (by decide) 1).1
      (by decide)
  · exact (cached_segment_load_correct 2 2 3 (fun _ => 0) 1 1 ⟨0, 3, 0, 1⟩
      (fun _ => 37) (fun _ => 7) [fun x => x + 7] demo_pre
      ⟨by norm_num, rfl⟩ (by norm_num) 0 (by decide) (by decide) 1).2
      (by decide) (by norm_num)
